import Mathlib

/-!
A verification development for `whisper_timestamped/transcribe.py`: a shallow
embedding of the word-timestamping core (segment accumulator, forced-alignment
engine, word segmenter, silence filter and timestamp-consistency enforcer),
together with theorems settling the specification claims.

Conventions of the embedding:
* Python floats are modelled as rationals (`ℚ`); `round(x, 2)` is modelled by
  `round2` (exact rational rounding to hundredths; Python's float
  representation error and banker's tie-breaking are not modelled — no claim
  below depends on the behaviour at exact ties).
* Token ids are `ℤ` (they are compared against `tokenizer.timestamp_begin`).
* Python code that can raise (asserts, `RuntimeError`, `IndexError`,
  `AttributeError`, `NameError`) is embedded in `Except String`.
* External collaborators (the Whisper model, torch, numpy, scipy, the `dtw`
  package) are modelled only through the interface the repository's code uses:
  tensor shapes, concatenation/slicing along the token axis, and the
  dynamic-time-warping path.  Floating-point attention values never influence
  any claim; the numeric filtering steps are modelled as shape-faithful maps.
-/

/-- `AUDIO_TIME_PER_TOKEN = HOP_LENGTH * 2 / SAMPLE_RATE = 320 / 16000 = 0.02` seconds. -/
def AUDIO_TIME_PER_TOKEN : ℚ := 1 / 50

/-- `N_FRAMES // 2 = 3000 // 2 = 1500`, the clamp used for `end_token` refinement. -/
def N_FRAMES_HALF : ℤ := 1500

/-- Model of Python `round(x, 2)`: round to a multiple of `1/100`.
Mathlib's `round` (round-half-up) stands in for Python's float rounding; all
properties used below (monotonicity, exactness on hundredths, invariance under
shifts by hundredths) are shared by every faithful rounding at this precision. -/
def round2 (x : ℚ) : ℚ := ((x * 100 + 1 / 2).floor : ℚ) / 100

/-- Replace the last element of a list (Python `xs[-1] = f(xs[-1])`); identity on `[]`. -/
def updateLast {α : Type} (f : α → α) : List α → List α
  | [] => []
  | [a] => [f a]
  | a :: b :: rest => a :: updateLast f (b :: rest)

/-- Python `s.strip()`: drop leading and trailing whitespace.  (Implemented on
the character list so that proofs can evaluate it; Lean's `Char.isWhitespace`
stands in for Python's whitespace set.) -/
def pyStrip (s : String) : String :=
  ⟨((s.data.dropWhile Char.isWhitespace).reverse.dropWhile Char.isWhitespace).reverse⟩

/-- Python `s.startswith(p)`. -/
def pyStartsWith (s p : String) : Bool := p.data.isPrefixOf s.data

/-- Bool-valued substring test, modelling Python's `needle in haystack` on strings. -/
def isInfixB : List Char → List Char → Bool
  | needle, [] => needle.isEmpty
  | needle, c :: rest => needle.isPrefixOf (c :: rest) || isInfixB needle rest

/-- Python `a in b` for strings: `a` occurs as a contiguous substring of `b`. -/
def pyInStr (a b : String) : Bool := isInfixB a.toList b.toList

/-- `string.punctuation` minus `-` and `'` (module-level `_punctuation`). -/
def _punctuation : String := "!\"#$%&()*+,./:;<=>?@[\\]^_`\x7b|\x7d~"

/-- A word produced by the forced-alignment engine:
`dict(text=..., start=..., end=...)`. -/
structure Word where
  text : String
  start : ℚ
  end_ : ℚ
deriving DecidableEq, Repr

/-- The slice of the external Whisper tokenizer interface that the core uses. -/
structure Tokenizer where
  timestamp_begin : ℤ
  eot : ℤ
  decode_with_timestamps : List ℤ → String

/-! ## Word Segmenter (`split_tokens_on_unicode`, `split_tokens_on_spaces`)

All call sites in the repository use the default `tokens_as_string=True` and
`isolate_punctuations=False`; the embedding fixes both (the
`tokens_as_string=False` branch builds dynamically-typed nested lists and is
dead code in this program). -/
/-- Loop body of `split_tokens_on_unicode`, with the mutable `words`,
`word_tokens`, `current_tokens` state made explicit. -/
def split_unicode_aux (T : Tokenizer) (rp : Bool)
    (words : List String) (word_tokens : List (List String))
    (current_tokens : List ℤ) :
    List ℤ → List String × List (List String)
  | [] => (words, word_tokens)
  | token :: rest =>
    let current := current_tokens ++ [token]
    let decoded := T.decode_with_timestamps current
    if decoded.data.contains '�' then
      split_unicode_aux T rp words word_tokens current rest
    else
      if pyInStr (pyStrip decoded) _punctuation then
        let ws := if words.isEmpty then [""] else words
        let wt := if words.isEmpty then [([] : List String)] else word_tokens
        let ws' := if rp then ws else updateLast (· ++ decoded) ws
        let wt' := updateLast (· ++ [pyStrip decoded]) wt
        split_unicode_aux T rp ws' wt' [] rest
      else
        split_unicode_aux T rp (words ++ [decoded]) (word_tokens ++ [[pyStrip decoded]]) [] rest

/-- `split_tokens_on_unicode(tokens, tokenizer, remove_punctuation_from_words)`:
splits a token sequence into unicode-complete units, merging punctuation into
the previous word.  Returns `(words, word_tokens)`. -/
def split_tokens_on_unicode (tokens : List ℤ) (T : Tokenizer) (rp : Bool) :
    List String × List (List String) :=
  split_unicode_aux T rp [] [] [] tokens

/-- The greedy grouping of a token sequence into unicode-complete chunks
(the successive values of `current_tokens` at each flush point of
`split_tokens_on_unicode`), together with the trailing tokens that never
decode cleanly.  Used to state what the segmenter preserves. -/
def unicode_chunks (T : Tokenizer) (current : List ℤ) :
    List ℤ → List (List ℤ × String) × List ℤ
  | [] => ([], current)
  | token :: rest =>
    let cur := current ++ [token]
    let d := T.decode_with_timestamps cur
    if d.data.contains '�' then unicode_chunks T cur rest
    else
      let r := unicode_chunks T [] rest
      ((cur, d) :: r.1, r.2)

/-- Loop body of `split_tokens_on_spaces`; `prev` carries the previous
`(subword, subword_tokens)` pair (for `previous_special`).  The merge branch
evaluates `words[-1]`, an `IndexError` when `words` is empty. -/
def split_spaces_aux (words : List String) (word_tokens : List (List String))
    (prev : Option (String × List String)) :
    List (String × List String) → Except String (List String × List (List String))
  | [] => .ok (words, word_tokens)
  | (subword, subword_tokens) :: rest =>
    let special := pyStartsWith (subword_tokens.headD "") "<|"
    let previous_special :=
      match prev with
      | none => false
      | some p => pyStartsWith (p.2.headD "") "<|"
    let with_space := pyStartsWith subword " "
    let punctuation := pyInStr (pyStrip subword) _punctuation
    if special || (with_space && !punctuation) || previous_special then
      split_spaces_aux (words ++ [pyStrip subword]) (word_tokens ++ [subword_tokens])
        (some (subword, subword_tokens)) rest
    else
      if words.isEmpty then
        .error "IndexError: list index out of range"
      else
        split_spaces_aux (updateLast (· ++ pyStrip subword) words)
          (updateLast (· ++ subword_tokens) word_tokens)
          (some (subword, subword_tokens)) rest

/-- `split_tokens_on_spaces(tokens, tokenizer, remove_punctuation_from_words)`:
regroups the unicode-split units into space-delimited words. -/
def split_tokens_on_spaces (tokens : List ℤ) (T : Tokenizer) (rp : Bool) :
    Except String (List String × List (List String)) :=
  let s := split_tokens_on_unicode tokens T rp
  split_spaces_aux [] [] none (s.1.zip s.2)

/-! ## Attention tensors and the external `dtw` call

A 4-d attention tensor `(layer × head × query-position × audio-frame)`.
Only shapes, concatenation and token/frame-axis slicing influence the claims;
the floating-point values are carried as rationals and never constrain a
theorem. -/
structure T4 where
  d0 : ℕ
  d1 : ℕ
  d2 : ℕ
  d3 : ℕ
  data : ℕ → ℕ → ℕ → ℕ → ℚ

/-- An element of the `attention_weights` argument.  Python is dynamically
typed: the recursive retry of `perform_word_alignment` passes a list of two
tensors per layer where a tensor is expected; `tlist` models that value. -/
inductive AttArg where
  | tensor (t : T4)
  | tlist (ts : List T4)

/-- `w.shape[-2]`: a Python `AttributeError` when `w` is a list, not a tensor. -/
def AttArg.shape2 : AttArg → Except String ℕ
  | .tensor t => .ok t.d2
  | .tlist _ => .error "AttributeError: 'list' object has no attribute 'shape'"

/-- Entry assertion: `assert w.shape[-2] == len(tokens)` for each weight. -/
def checkAttShapes (tokens_len : ℕ) : List AttArg → Except String Unit
  | [] => .ok ()
  | w :: rest => do
    let s ← w.shape2
    if s = tokens_len then checkAttShapes tokens_len rest
    else .error "AssertionError: Attention weights have wrong shape."

/-- Data of a dim-0 concatenation: route layer index `i` to the right tensor. -/
def catDim0Data : List T4 → ℕ → ℕ → ℕ → ℕ → ℚ
  | [], _, _, _, _ => 0
  | t :: rest, i, j, k, l => if i < t.d0 then t.data i j k l else catDim0Data rest (i - t.d0) j k l

/-- `torch.cat(ts)` along dim 0 (layers); raises on an empty list or on
mismatched remaining dimensions. -/
def catDim0 (ts : List T4) : Except String T4 :=
  match ts with
  | [] => .error "RuntimeError: torch.cat expected a non-empty list of Tensors"
  | t :: rest =>
    if rest.all fun u => u.d1 == t.d1 && u.d2 == t.d2 && u.d3 == t.d3 then
      .ok ⟨(ts.map T4.d0).sum, t.d1, t.d2, t.d3, catDim0Data ts⟩
    else .error "RuntimeError: Sizes of tensors must match except in dimension 0"

/-- Data of a dim-(-2) concatenation: route token index `k` to the right tensor. -/
def catDim2Data : List T4 → ℕ → ℕ → ℕ → ℕ → ℚ
  | [], _, _, _, _ => 0
  | t :: rest, i, j, k, l => if k < t.d2 then t.data i j k l else catDim2Data rest i j (k - t.d2) l

/-- `torch.cat(ts, dim=-2)` (query-position axis). -/
def catDim2 (ts : List T4) : Except String T4 :=
  match ts with
  | [] => .error "RuntimeError: torch.cat expected a non-empty list of Tensors"
  | t :: rest =>
    if rest.all fun u => u.d0 == t.d0 && u.d1 == t.d1 && u.d3 == t.d3 then
      .ok ⟨t.d0, t.d1, (ts.map T4.d2).sum, t.d3, catDim2Data ts⟩
    else .error "RuntimeError: Sizes of tensors must match except in dimension 2"

/-- `w[:, :, :k, :]` (Python slice semantics: clamped, never raising). -/
def sliceTokTake (k : ℕ) (t : T4) : T4 :=
  ⟨t.d0, t.d1, min k t.d2, t.d3, t.data⟩

/-- `w[:, :, -1:, :]`: the last query position. -/
def sliceTokLast (t : T4) : T4 :=
  ⟨t.d0, t.d1, min 1 t.d2, t.d3, fun i j k l => t.data i j (t.d2 - 1 + k) l⟩

/-- `w[:, :, :, s:e]` (frame window restriction; Python slice clamping). -/
def sliceFrames (t : T4) (s e : ℕ) : T4 :=
  ⟨t.d0, t.d1, t.d2, min e t.d3 - min s t.d3, fun i j k l => t.data i j k (min s t.d3 + l)⟩

/-- `weights[-k:]`: keep the (at most) `k` most recent layers. -/
def lastLayers (k : ℕ) (t : T4) : T4 :=
  ⟨min k t.d0, t.d1, t.d2, t.d3, fun i j k' l => t.data (t.d0 - min k t.d0 + i) j k' l⟩

/-- `scipy.signal.medfilt(weights, (1, 1, 1, medfilt_width))`: an external
floating-point 1-d median filter along the frame axis.  It is shape-preserving
and raises when the kernel width is even; its values are not modelled (no
claim depends on them). -/
def medfiltLast (t : T4) (w : ℕ) : Except String T4 :=
  if w % 2 == 0 then .error "ValueError: Each element of kernel_size should be odd."
  else .ok t

/-- `torch.tensor(weights * qk_scale).softmax(dim=-1)`: an external
shape-preserving floating-point map; values not modelled. -/
def softmaxLast (t : T4) : T4 := t

/-- `weights / weights.norm(dim=-2, keepdim=True)`: an external
shape-preserving floating-point map; values not modelled. -/
def normalizeTok (t : T4) : T4 := t

/-- `-weights.mean(axis=(0, 1))`: the negated average over layers and heads,
giving the 2-d (token × frame) DTW cost matrix. -/
def negMeanLayersHeads (t : T4) : ℕ → ℕ → ℚ := fun i j =>
  -(((Finset.range t.d0).sum fun a => (Finset.range t.d1).sum fun b => t.data a b i j) /
    ((t.d0 : ℚ) * (t.d1 : ℚ)))

/-! The external `dtw.dtw` call with the custom step pattern
`(1,1,1,-1),(1,0,0,1),(2,0,1,-1),(2,0,0,1)`: the only admissible moves through
the cost matrix are the diagonal `(token+1, frame+1)` and the horizontal
`(token, frame+1)`, from `(0,0)` to `(n-1, m-1)` ("symmetric1 without the
possibility to have several timestamps for two tokens").  The minimum
accumulated cost and a realising path are computed by dynamic programming;
`none` marks unreachable cells. -/
/-- Minimal accumulated DTW cost of reaching cell `(i, j)`. -/
def dtwCost (w : ℕ → ℕ → ℚ) : ℕ → ℕ → Option ℚ
  | 0, 0 => some (w 0 0)
  | 0, j + 1 => (dtwCost w 0 j).map (· + w 0 (j + 1))
  | _ + 1, 0 => none
  | i + 1, j + 1 =>
    match dtwCost w i j, dtwCost w (i + 1) j with
    | some a, some b => some (min a b + w (i + 1) (j + 1))
    | some a, none => some (a + w (i + 1) (j + 1))
    | none, some b => some (b + w (i + 1) (j + 1))
    | none, none => none
termination_by i j => i + j

/-- A minimum-cost path to `(i, j)`, by backtracking the DP table. -/
def dtwPathAux (w : ℕ → ℕ → ℚ) : ℕ → ℕ → List (ℕ × ℕ)
  | 0, 0 => [(0, 0)]
  | 0, j + 1 => dtwPathAux w 0 j ++ [(0, j + 1)]
  | _ + 1, 0 => []
  | i + 1, j + 1 =>
    match dtwCost w i j, dtwCost w (i + 1) j with
    | some a, some b =>
      if a ≤ b then dtwPathAux w i j ++ [(i + 1, j + 1)]
      else dtwPathAux w (i + 1) j ++ [(i + 1, j + 1)]
    | some _, none => dtwPathAux w i j ++ [(i + 1, j + 1)]
    | none, some _ => dtwPathAux w (i + 1) j ++ [(i + 1, j + 1)]
    | none, none => dtwPathAux w i j ++ [(i + 1, j + 1)]
termination_by i j => i + j

/-- The alignment path (`zip(alignment.index1s, alignment.index2s)`) for an
`n × m` cost matrix. -/
def dtwPath (w : ℕ → ℕ → ℚ) (n m : ℕ) : List (ℕ × ℕ) :=
  dtwPathAux w (n - 1) (m - 1)

/-- `jumps`: frame indices (`index2s`) selected where the token index
(`index1s`) advances, the leading position always included
(`np.pad(np.diff(index1s), (1, 0), constant_values=1).astype(bool)`). -/
def jumpSelect : Option ℕ → List (ℕ × ℕ) → List ℕ
  | _, [] => []
  | none, p :: rest => p.2 :: jumpSelect (some p.1) rest
  | some prev, p :: rest =>
    if p.1 ≠ prev then p.2 :: jumpSelect (some p.1) rest
    else jumpSelect (some p.1) rest

/-- `torch.cat(attention_weights)`: every element must be a tensor
(unreachable otherwise, since the entry shape assertions run first). -/
def catAttArgs (ws : List AttArg) : Except String T4 := do
  let ts ← ws.mapM fun w =>
    match w with
    | .tensor t => pure t
    | .tlist _ => Except.error "TypeError: expected Tensor as element in argument 0"
  catDim0 ts

/-- The tail of `perform_word_alignment` after the attention weights have been
sliced to the frame window and median-filtered: softmax / normalization /
optional top-layer restriction, the DTW cost matrix and path, the jump frames
and the begin/end time tables at the cumulative word boundaries
(lines 597-651 of the source). -/
def word_times_tail (weights : T4) (most_top_layers : Option ℕ)
    (num_tokens num_frames : ℕ) (word_tokens : List (List String))
    (duration : ℚ) : List ℚ × List ℚ :=
  let weights := softmaxLast weights
  let weights := normalizeTok weights
  let weights := most_top_layers.elim weights fun k => lastLayers k weights
  let cost := negMeanLayersHeads weights
  let path := dtwPath cost num_tokens num_frames
  let jump_frames := jumpSelect none path
  let jump_times := jump_frames.map (fun (f : ℕ) => (f : ℚ) * AUDIO_TIME_PER_TOKEN) ++
    [duration]
  let word_boundaries := (word_tokens.map List.length).scanl (· + ·) 0
  (word_boundaries.dropLast.map fun b => jump_times.getD b 0,
   (word_boundaries.drop 1).map fun b => jump_times.getD b 0)

/-- The main (non-degenerate) branch of `perform_word_alignment`, from the
word split to the final word list (source lines 514-692), with the recursive
too-many-tokens retry abstracted as the `retry` continuation.  `start_token`
and `end_token` are the (possibly refined) frame positions. -/
def align_main (tokens : List ℤ) (attention_weights : List AttArg)
    (tokenizer : Tokenizer) (use_space : Bool)
    (refine_whisper_precision_nsamples : ℕ) (medfilt_width : ℕ)
    (most_top_layers : Option ℕ) (remove_punctuation_from_words : Bool)
    (start_token end_token : ℤ)
    (retry : List ℤ → List AttArg → Except String (List Word)) :
    Except String (List Word) := do
  let start_time : ℚ := (start_token : ℚ) * AUDIO_TIME_PER_TOKEN
  let end_time : ℚ := (end_token : ℚ) * AUDIO_TIME_PER_TOKEN
  let split_e : Except String (List String × List (List String)) :=
    if use_space then split_tokens_on_spaces tokens tokenizer remove_punctuation_from_words
    else pure (split_tokens_on_unicode tokens tokenizer remove_punctuation_from_words)
  let split ← split_e
  let words := split.1
  let word_tokens := split.2
  let weights ← catAttArgs attention_weights
  let num_tokens := weights.d2
  let num_frames := (end_token - start_token).toNat
  if num_frames < num_tokens then do
    let collapsed ← attention_weights.mapM fun w =>
      match w with
      | .tensor t =>
        pure (AttArg.tlist [sliceTokTake (num_frames - 1) t, sliceTokLast t])
      | .tlist _ =>
        Except.error "TypeError: list indices must be integers or slices, not tuple"
    retry (tokens.take (num_frames - 1) ++ [tokens.getLastD 0]) collapsed
  else do
  if ¬ (end_token ≤ (weights.d3 : ℤ)) then
    .error "AssertionError: end_token <= weights.shape[-1]"
  else if ¬ (tokens.length = num_tokens) then
    .error "AssertionError: len(tokens) == num_tokens"
  else do
  let weights := sliceFrames weights start_token.toNat end_token.toNat
  let weights ← medfiltLast weights medfilt_width
  let bt_raw := word_times_tail weights most_top_layers num_tokens num_frames
    word_tokens (end_time - start_time)
  let begin_times := bt_raw.1
  let end_times := bt_raw.2
  let bt_et_e : Except String (List ℚ × List ℚ) :=
    if refine_whisper_precision_nsamples == 0 then
      if begin_times.length < 2 then
        Except.error "IndexError: index 1 is out of bounds"
      else
        pure (begin_times.set 1 (begin_times.getD 0 0),
              end_times.set (end_times.length - 2) (end_times.getD (end_times.length - 1) 0))
    else
      pure (begin_times, end_times)
  let bt_et ← bt_et_e
  let words := (words.drop 1).dropLast
  let begin_times := (bt_et.1.drop 1).dropLast
  let end_times := (bt_et.2.drop 1).dropLast
  pure ((words.zip (begin_times.zip end_times)).filterMap fun we =>
    if pyStartsWith we.1 "<|" then none
    else some ⟨we.1, round2 (we.2.1 + start_time), round2 (we.2.2 + start_time)⟩)

/-! ## `perform_word_alignment`

The general recursion (the too-many-tokens retry) is embedded with an explicit
`fuel` parameter.  The `plot`/`mfcc`/`debug` plotting and logging code and the
pure value-scaling `qk_scale` are not modelled. -/
def perform_word_alignment (fuel : ℕ) (tokens : List ℤ) (attention_weights : List AttArg)
    (tokenizer : Tokenizer) (use_space : Bool) (refine_whisper_precision_nsamples : ℕ)
    (add_even_if_missing_end_token : Bool) (medfilt_width : ℕ) (most_top_layers : Option ℕ)
    (remove_punctuation_from_words : Bool) : Except String (List Word) :=
  match fuel with
  | 0 => .error "recursion fuel exhausted"
  | fuel + 1 => do
    checkAttShapes tokens.length attention_weights
    if tokens.isEmpty then
      .error "AssertionError: Got unexpected empty sequence of tokens"
    else do
    let start_token : ℤ := tokens.headD 0 - tokenizer.timestamp_begin
    let end_token : ℤ := tokens.getLastD 0 - tokenizer.timestamp_begin
    if start_token < 0 then
      .error "RuntimeError: Missing start token"
    else if tokens.length == 1 || end_token < 0 then
      if add_even_if_missing_end_token then
        pure [⟨"", round2 ((start_token : ℚ) * AUDIO_TIME_PER_TOKEN),
                  round2 ((end_token : ℚ) * AUDIO_TIME_PER_TOKEN)⟩]
      else
        pure []
    else if end_token == start_token && refine_whisper_precision_nsamples == 0 then
      pure []
    else do
    let start_token : ℤ :=
      if 0 < refine_whisper_precision_nsamples then
        max (start_token - refine_whisper_precision_nsamples) 0
      else start_token
    let end_token : ℤ :=
      if 0 < refine_whisper_precision_nsamples then
        min (end_token + refine_whisper_precision_nsamples) N_FRAMES_HALF
      else end_token
    if end_token ≤ start_token then
      .error "RuntimeError: Got segment with null or negative duration"
    else
      align_main tokens attention_weights tokenizer use_space
        refine_whisper_precision_nsamples medfilt_width most_top_layers
        remove_punctuation_from_words start_token end_token
        (fun tks cw =>
          perform_word_alignment fuel tks cw tokenizer use_space
            refine_whisper_precision_nsamples true medfilt_width most_top_layers
            remove_punctuation_from_words)

/-! ## `ensure_increasing_positions` (Timestamp Consistency Enforcer)

One `for` pass over the word list (mutating starts/ends and the
`has_modified_backward` flag), the recursive re-run to a fixed point, and the
final rounding/assertion pass.  The general recursion is embedded with fuel;
the termination theorem below shows fuel 2 always suffices. -/
/-- `if seg["end"] <= seg["start"] + min_duration: seg["end"] = seg["start"] + min_duration`. -/
def enforce_min (min_duration : ℚ) (seg : Word) : Word :=
  if seg.end_ ≤ seg.start + min_duration then ⟨seg.text, seg.start, seg.start + min_duration⟩
  else seg

/-- Loop body of `ensure_increasing_positions`; `acc` holds the already
processed words in reverse (its head is `segments[i-1]`, mutable through the
backward adjustment), `previous_end` the end of the previous word. -/
def ensure_pass_aux (min_duration : ℚ) (acc : List Word) (previous_end : ℚ)
    (modified : Bool) : List Word → Except String (List Word × Bool)
  | [] => .ok (acc.reverse, modified)
  | seg :: rest =>
    if seg.start < previous_end then
      match acc with
      | [] => .error "AssertionError: i > 0"
      | prev :: acc_rest =>
        let new_start := round2 ((previous_end + seg.start) / 2)
        if new_start < prev.start + min_duration then
          let seg := enforce_min min_duration ⟨seg.text, previous_end, seg.end_⟩
          ensure_pass_aux min_duration (seg :: prev :: acc_rest) seg.end_ modified rest
        else
          let prev := ⟨prev.text, prev.start, new_start⟩
          let seg := enforce_min min_duration ⟨seg.text, new_start, seg.end_⟩
          ensure_pass_aux min_duration (seg :: prev :: acc_rest) seg.end_ true rest
    else
      let seg := enforce_min min_duration seg
      ensure_pass_aux min_duration (seg :: acc) seg.end_ modified rest

/-- One full pass of the overlap/minimum-duration repair loop; returns the
updated word list and the `has_modified_backward` flag. -/
def ensure_pass (min_duration : ℚ) (segments : List Word) :
    Except String (List Word × Bool) :=
  ensure_pass_aux min_duration [] 0 false segments

/-- The final pass: round every boundary to hundredths and assert global
monotonicity (`seg["start"] >= previous_end`) and positive duration
(`seg["end"] > seg["start"]`). -/
def final_round_check (previous_end : ℚ) : List Word → Except String (List Word)
  | [] => .ok []
  | seg :: rest =>
    let seg : Word := ⟨seg.text, round2 seg.start, round2 seg.end_⟩
    if ¬ (previous_end ≤ seg.start) then
      .error "AssertionError: Got segment coming before the previous finishes"
    else if ¬ (seg.start < seg.end_) then
      .error "AssertionError: Got segment with end <= start"
    else do
      let rest' ← final_round_check seg.end_ rest
      pure (seg :: rest')

/-- `ensure_increasing_positions(segments, min_duration)`:  repair passes to a
fixed point, then the final rounding/assertion pass. -/
def ensure_increasing_positions (fuel : ℕ) (segments : List Word) (min_duration : ℚ) :
    Except String (List Word) :=
  match fuel with
  | 0 => .error "recursion fuel exhausted"
  | fuel + 1 => do
    let pr ← ensure_pass min_duration segments
    if pr.2 then ensure_increasing_positions fuel pr.1 min_duration
    else final_round_check 0 pr.1

/-! ## Segment Accumulator state machine

The shared mutable variables threaded through the nested closures of
`transcribe_timestamped` (`tok_indices`, `tok_attweights`,
`timestamped_word_segments`, `saw_consecutive_timestamps`,
`index_begin_30sec_chunck`, the per-window counters) are collected in an
explicit state record.  `chunk_tokens` (kept only to drive the external logit
filters) and the logit hook itself are external to the claims and omitted;
`chunk_logprobs` is taken as the list of per-step log-probability vectors the
hook accumulated. -/
structure TState where
  tok_indices : List (List ℤ)
  tok_attweights : List (List T4)
  timestamped_word_segments : List (List Word)
  saw_consecutive_timestamps : Bool
  index_begin_30sec_chunck : ℕ
  no_speech_prob : Option ℚ
  chunk_logprobs : List (List ℚ)
  chunk_tokens_nosot : List ℤ
  has_started : Bool

/-- Configuration the accumulator closures captured from
`transcribe_timestamped`'s arguments. -/
structure TConfig where
  tokenizer : Tokenizer
  use_space : Bool
  refine_whisper_precision_nsamples : ℕ
  remove_punctuation_from_words : Bool
  no_speech_threshold : Option ℚ
  logprob_threshold : Option ℚ

/-- Update the second-to-last element (Python `xs[-2] = f(xs[-2])`). -/
def updatePenult {α : Type} (f : α → α) : List α → List α
  | [] => []
  | [a] => [a]
  | [a, b] => [f a, b]
  | a :: b :: c :: rest => a :: updatePenult f (b :: c :: rest)

/-- `tok_indices[-1][-1] if len(tok_indices[-1]) > 0 else 0`. -/
def last_buffer_token (s : TState) : ℤ :=
  if (s.tok_indices.getLastD []).length > 0 then (s.tok_indices.getLastD []).getLastD 0
  else 0

/-- `reset(add_segment, keep_last_token)`: reset the current speech segment's
token and attention buffers. -/
def reset (s : TState) (add_segment keep_last_token : Bool) : TState :=
  if add_segment then
    let s :=
      if keep_last_token then
        { s with
          tok_indices := s.tok_indices ++ [[(s.tok_indices.getLastD []).getLastD 0]],
          tok_attweights := s.tok_attweights.map fun w => w.drop (w.length - 1) }
      else
        { s with
          tok_indices := s.tok_indices ++ [[]],
          tok_attweights := s.tok_attweights.map fun _ => ([] : List T4) }
    { s with tok_indices := updatePenult (List.drop 1) s.tok_indices }
  else if (s.tok_indices.getLastD []).length > 0 then
    { s with
      tok_indices := updateLast (fun _ => []) s.tok_indices,
      tok_attweights := s.tok_attweights.map fun _ => ([] : List T4) }
  else s

/-- `must_flush_segment(curr_tokens)`: whether the previously collected tokens
must be used to add a new speech segment.  Returns the decision together with
the updated state (`saw_consecutive_timestamps`, and the discard-reset on a
prompt that does not flush). -/
def must_flush_segment (tb : ℤ) (s : TState) (curr_tokens : Option (List ℤ)) :
    Bool × TState :=
  match curr_tokens with
  | some curr =>
    if curr.length = 1 then
      let consecutive : Bool := decide (tb ≤ curr.headD 0 ∧ tb ≤ last_buffer_token s)
      if consecutive then (true, { s with saw_consecutive_timestamps := true })
      else (false, s)
    else
      let must_flush := ! s.saw_consecutive_timestamps
      let s := if must_flush then s else reset s false true
      (must_flush, { s with saw_consecutive_timestamps := false })
  | none =>
    let must_flush := ! s.saw_consecutive_timestamps
    let s := if must_flush then s else reset s false true
    (must_flush, { s with saw_consecutive_timestamps := false })

/-- `get_index_begin_30sec_chunck(curr_tokens)`: on a prompt event (or
finalization) return the saved window start index and remember the new one;
on a single-token event return `None` (the Python function falls through). -/
def get_index_begin_30sec_chunck (s : TState) (curr_tokens : Option (List ℤ)) :
    Option ℕ × TState :=
  match curr_tokens with
  | none =>
    (some s.index_begin_30sec_chunck,
     { s with index_begin_30sec_chunck := s.tok_indices.length - 1 })
  | some curr =>
    if curr.length > 1 then
      (some s.index_begin_30sec_chunck,
       { s with index_begin_30sec_chunck := s.tok_indices.length - 1 })
    else (none, s)

/-- The average log-probability the filter computes: the per-step
log-probability of each chosen token (`chunk_tokens_nosot` plus the implicit
`eot` marker), averaged (`sum_logprob / len(logprobs)`).  Tensor indexing
`logprob[i]` is modelled by `getD` (token ids are non-negative in practice). -/
def silence_avg_logprob (tok : Tokenizer) (s : TState) : ℚ :=
  let chunck_indices := s.chunk_tokens_nosot ++ [tok.eot]
  let logprobs := (s.chunk_logprobs.zip chunck_indices).map fun p => p.1.getD p.2.toNat 0
  logprobs.sum / (logprobs.length : ℚ)

/-- The Silence/Confidence Filter block of `may_flush_segment` (lines
270-295): decide whether to drop the closed window's segments, then reset the
per-window counters.  When the provisional skip stands and no log-probability
threshold is configured, the debug f-string at line 287 evaluates the unbound
local `avg_logprob` — a Python `NameError`. -/
def silence_filter (cfg : TConfig) (s : TState) (i_start : ℕ) : Except String TState := do
  let s ←
    match cfg.no_speech_threshold with
    | none => pure s
    | some nst => do
      let nsp ←
        match s.no_speech_prob with
        | none =>
          Except.error "TypeError: not supported between instances of NoneType and float"
        | some nsp => pure nsp
      let provisional_skip : Bool := decide (nst < nsp)
      let avg_logprob : Option ℚ ←
        if provisional_skip then
          match cfg.logprob_threshold with
          | some _ => do
            let chunck_indices := s.chunk_tokens_nosot ++ [cfg.tokenizer.eot]
            if ¬ (s.chunk_logprobs.length = chunck_indices.length) then
              Except.error "AssertionError: len(chunk_logprobs) != len(chunck_indices)"
            else
              pure (some (silence_avg_logprob cfg.tokenizer s))
          | none => pure none
        else pure none
      let should_skip : Bool :=
        match avg_logprob, cfg.logprob_threshold with
        | some avg, some lt => provisional_skip && ! decide (lt < avg)
        | _, _ => provisional_skip
      if should_skip then
        match avg_logprob with
        | none => Except.error "NameError: name 'avg_logprob' is not defined"
        | some _ =>
          pure { s with
            tok_indices := s.tok_indices.take i_start ++ [s.tok_indices.getLastD []],
            timestamped_word_segments := s.timestamped_word_segments.take i_start }
      else pure s
  pure { s with chunk_logprobs := [], chunk_tokens_nosot := [], no_speech_prob := none }

/-- The per-layer attention slice of `hook_attention_weights`: only the last
query position of a multi-query step is retained. -/
def keepLastQuery (w : T4) : T4 := if 1 < w.d2 then sliceTokLast w else w

/-- `may_flush_segment(curr_tokens)`: add a speech segment with the collected
tokens if necessary, then (on a window boundary) run the silence filter. -/
def may_flush_segment (cfg : TConfig) (s : TState) (curr_tokens : Option (List ℤ)) :
    Except String TState := do
  let fl := must_flush_segment cfg.tokenizer.timestamp_begin s curr_tokens
  let s ←
    if fl.1 then do
      let s := fl.2
      let buffer := s.tok_indices.getLastD []
      let catted ← s.tok_attweights.mapM fun w => catDim2 w.dropLast
      let ws ← perform_word_alignment (buffer.length + 2) (buffer.drop 1)
        (catted.map AttArg.tensor) cfg.tokenizer cfg.use_space
        cfg.refine_whisper_precision_nsamples true 9 none
        cfg.remove_punctuation_from_words
      let add_segment := ! ws.isEmpty
      let s :=
        if add_segment then
          { s with timestamped_word_segments := s.timestamped_word_segments ++ [ws] }
        else s
      pure (reset s add_segment
        (match curr_tokens with | some c => c.length = 1 | none => false))
    else pure fl.2
  let gi := get_index_begin_30sec_chunck s curr_tokens
  let s := gi.2
  match gi.1 with
  | some i_start => if s.has_started then silence_filter cfg s i_start else pure s
  | none => pure s

/-- `hook_input_tokens` for a steady-state (single-token) decoding step,
followed by the per-layer `hook_attention_weights` calls of the same step. -/
def on_single_token (cfg : TConfig) (s : TState) (t : ℤ) (att : List T4) :
    Except String TState := do
  let s ← may_flush_segment cfg s (some [t])
  let s := { s with tok_indices := updateLast (· ++ [t]) s.tok_indices }
  let s :=
    if s.has_started then { s with chunk_tokens_nosot := s.chunk_tokens_nosot ++ [t] }
    else s
  pure { s with
    tok_attweights := s.tok_attweights.zipWith (fun w a => w ++ [keepLastQuery a]) att }

/-- Run a window's worth of single-token decoding events. -/
def runSingles (cfg : TConfig) (s : TState) : List (ℤ × List T4) → Except String TState
  | [] => .ok s
  | ev :: rest => do
    let s ← on_single_token cfg s ev.1 ev.2
    runSingles cfg s rest

/-- Two adjacent tokens of `prev :: trace` are both timestamp-class: the
"previous output ended on (or contained) two consecutive timestamp tokens"
condition, tracked from the last buffered token through a trace of
single-token events. -/
def sawPair (tb : ℤ) : ℤ → List ℤ → Bool
  | _, [] => false
  | prev, t :: rest => (decide (tb ≤ t) && decide (tb ≤ prev)) || sawPair tb t rest

/-! ## Concrete instances used by witnesses and counterexamples -/
/-- A small concrete stand-in for the Whisper tokenizer:
`timestamp_begin = 10`, `eot = 3`; timestamp-class tokens decode to
`<|k|>` markers, token `0` to `" a"`, other text tokens to `"b"`. -/
def sampleTokenizer : Tokenizer :=
  ⟨10, 3, fun ts => (ts.map fun t =>
      if 10 ≤ t then "<|t|>"
      else if t = 0 then " a" else "b").foldl (· ++ ·) ""⟩

instance instDecEqExcept {ε α : Type} [DecidableEq ε] [DecidableEq α] :
    DecidableEq (Except ε α) := fun x y =>
  match x, y with
  | .ok a, .ok b => if h : a = b then isTrue (by rw [h]) else isFalse (by simp [h])
  | .error a, .error b => if h : a = b then isTrue (by rw [h]) else isFalse (by simp [h])
  | .ok _, .error _ => isFalse (by simp)
  | .error _, .ok _ => isFalse (by simp)

/-! ## Claim C9: totality precondition of `split_tokens_on_spaces` -/
/-- A tokenizer whose every chunk decodes to a bare punctuation character. -/
def punctTokenizer : Tokenizer := ⟨10, 3, fun _ => ","⟩

/-- A tokenizer whose every chunk decodes to space-prefixed punctuation. -/
def spacePunctTokenizer : Tokenizer := ⟨10, 3, fun _ => " ,"⟩

/-- A tokenizer with a genuine multi-token chunk: token `1` alone decodes to
an incomplete (replacement-character) byte sequence, the pair `[1, 1]`
decodes to `"aa"`. -/
def multiTokenChunkTokenizer : Tokenizer :=
  ⟨10, 3, fun ts => if ts = [1] then "�" else if ts = [1, 1] then "aa" else ""⟩

/-! ## Claim C2: `start <= end` for produced words

Structure of the DTW output: the step pattern only allows the diagonal move
`(token+1, frame+1)` and the horizontal move `(token, frame+1)`, so along the
alignment path the frame index advances by exactly one per step and the token
index is non-decreasing. -/
/-- One admissible step of the alignment path. -/
def StepRel (a b : ℕ × ℕ) : Prop := (b.1 = a.1 ∨ b.1 = a.1 + 1) ∧ b.2 = a.2 + 1

def wA11 : T4 := ⟨1, 1, 1, 5, fun _ _ _ _ => 0⟩

/-- Accumulator state with one open segment holding the non-timestamp token
`5`, one attention layer, and `saw_consecutive_timestamps = false`. -/
def s0C1 : TState := ⟨[[5]], [[wA11]], [], false, 0, none, [], [], false⟩

def cfgC1 : TConfig := ⟨sampleTokenizer, true, 0, false, none, none⟩

/-- `round2` agrees with Mathlib's `round` at scale 100. -/
theorem round2_eq (x : ℚ) : round2 x = ((round (x * 100) : ℤ) : ℚ) / 100 := by
  unfold round2
  rw [round_eq]
  have h : (x * 100 + 1 / 2).floor = ⌊x * 100 + 1 / 2⌋ := by
    rw [Rat.floor_def', Rat.floor_def]
  rw [h]

theorem round2_monotone {x y : ℚ} (h : x ≤ y) : round2 x ≤ round2 y := by
  rw [round2_eq, round2_eq]
  have hr : round (x * 100) ≤ round (y * 100) := by
    rw [round_eq, round_eq]
    exact Int.floor_le_floor (by nlinarith)
  have hq : ((round (x * 100) : ℤ) : ℚ) ≤ ((round (y * 100) : ℤ) : ℚ) := by
    exact_mod_cast hr
  linarith

theorem round2_intMul (k : ℤ) : round2 ((k : ℚ) / 100) = (k : ℚ) / 100 := by
  rw [round2_eq]
  rw [div_mul_cancel₀]
  · rw [round_intCast]
  · norm_num

theorem round2_add_intMul (x : ℚ) (k : ℤ) :
    round2 (x + (k : ℚ) / 100) = round2 x + (k : ℚ) / 100 := by
  rw [round2_eq, round2_eq]
  have : (x + (k : ℚ) / 100) * 100 = x * 100 + (k : ℚ) := by ring
  rw [this, round_add_int]
  push_cast
  ring

/-- A multiple of `1/50` (a timestamp-grid value) is rounded exactly by `round2`. -/
theorem round2_fiftieths (k : ℤ) : round2 ((k : ℚ) / 50) = (k : ℚ) / 50 := by
  have : ((k : ℚ)) / 50 = ((2 * k : ℤ) : ℚ) / 100 := by push_cast; ring
  rw [this, round2_intMul]

theorem updateLast_nil {α : Type} (f : α → α) : updateLast f ([] : List α) = [] := rfl

theorem updateLast_length {α : Type} (f : α → α) (l : List α) :
    (updateLast f l).length = l.length := by
  induction l with
  | nil => rfl
  | cons a rest ih =>
    cases rest with
    | nil => rfl
    | cons b r => simpa [updateLast] using ih

theorem updateLast_append_singleton {α : Type} (f : α → α) (l : List α) (a : α) :
    updateLast f (l ++ [a]) = l ++ [f a] := by
  induction l with
  | nil => rfl
  | cons x rest ih =>
    cases rest with
    | nil => rfl
    | cons y r => simp [updateLast] at ih ⊢; exact ih

theorem checkAttShapes_ok (n : ℕ) (l : List AttArg)
    (h : ∀ w ∈ l, w.shape2 = Except.ok n) : checkAttShapes n l = Except.ok () := by
  induction l with
  | nil => rfl
  | cons w rest ih =>
    have hw := h w (by simp)
    rw [checkAttShapes, hw]
    show (if n = n then checkAttShapes n rest else _) = _
    rw [if_pos rfl]
    exact ih fun w hw => h w (by simp [hw])

/-! ## Claim C6: the single-start-marker placeholder -/
/-- C6 (confirmed): for a token sequence consisting of only a leading
timestamp-class start marker (and hence no trailing marker — decoding cut
off), `perform_word_alignment` with `add_even_if_missing_end_token` enabled
does not raise and returns exactly one placeholder word with empty text and
`start == end`, both equal to the start-marker time
`(t - timestamp_begin) * AUDIO_TIME_PER_TOKEN`. -/
theorem C6_single_start_marker_placeholder (fuel : ℕ) (T : Tokenizer) (t : ℤ)
    (attws : List AttArg) (use_space : Bool) (refine mw : ℕ) (mtl : Option ℕ) (rp : Bool)
    (ht : T.timestamp_begin ≤ t)
    (hw : ∀ w ∈ attws, w.shape2 = Except.ok 1) :
    perform_word_alignment (fuel + 1) [t] attws T use_space refine true mw mtl rp =
      Except.ok [⟨"", ((t - T.timestamp_begin : ℤ) : ℚ) * AUDIO_TIME_PER_TOKEN,
                     ((t - T.timestamp_begin : ℤ) : ℚ) * AUDIO_TIME_PER_TOKEN⟩] := by
  have hsh : checkAttShapes ([t] : List ℤ).length attws = Except.ok () :=
    checkAttShapes_ok _ _ (by simpa using hw)
  have h2 : ¬ (t - T.timestamp_begin < 0) := by omega
  have h50 : round2 (((t : ℚ) - (T.timestamp_begin : ℚ)) * AUDIO_TIME_PER_TOKEN) =
      ((t : ℚ) - (T.timestamp_begin : ℚ)) * AUDIO_TIME_PER_TOKEN := by
    have h := round2_fiftieths (t - T.timestamp_begin)
    rw [AUDIO_TIME_PER_TOKEN, mul_one_div]
    push_cast at h
    exact h
  rw [perform_word_alignment, hsh]
  simp [Bind.bind, Except.bind, Pure.pure, Except.pure, h2, h50]

/-- C6 witness: the start marker `<|5|>` (token 15 with `timestamp_begin = 10`)
yields the placeholder word `("", 0.10, 0.10)`. -/
theorem C6_witness :
    perform_word_alignment 1 [15] [] sampleTokenizer true 0 true 9 none false =
      Except.ok [⟨"", 1/10, 1/10⟩] := by
  have h := C6_single_start_marker_placeholder 0 sampleTokenizer 15 [] true 0 9 none false
    (by norm_num [sampleTokenizer]) (by intro w hw; cases hw)
  rw [h]
  norm_num [sampleTokenizer, AUDIO_TIME_PER_TOKEN]

/-! ## Claim C5: the too-many-tokens recursive retry -/
/-- C5 (code bug): a segment whose token count (4) exceeds the frame count
(2, from the timestamp markers at tokens 10 and 12) triggers the recursive
retry, but the retry passes a *list* of two tensors per layer where a tensor
is expected (`[[w[:, :, :num_frames-1, :], w[:, :, -1:, :]] for w in
attention_weights]` — a `torch.cat` is missing), so the retry's own entry
assertion evaluates `w.shape[-2]` on a list and raises `AttributeError`
instead of producing the segment's word list. -/
theorem C5_too_many_tokens_retry_crashes :
    perform_word_alignment 4 [10, 0, 1, 12] [AttArg.tensor ⟨1, 1, 4, 2, fun _ _ _ _ => 0⟩]
      sampleTokenizer true 0 true 9 none false =
      Except.error "AttributeError: 'list' object has no attribute 'shape'" := by decide

/-! ## Claim C10: the first word must start at a non-negative time -/
theorem ensure_pass_aux_ne_i0 (min_duration : ℚ) :
    ∀ (l acc : List Word) (prev : ℚ) (mod : Bool), acc ≠ [] →
      ensure_pass_aux min_duration acc prev mod l ≠ Except.error "AssertionError: i > 0" := by
  intro l
  induction l with
  | nil => intro acc prev mod _ h; simp [ensure_pass_aux] at h
  | cons seg rest ih =>
    intro acc prev mod hacc
    cases acc with
    | nil => exact absurd rfl hacc
    | cons prev_w acc_rest =>
      simp only [ensure_pass_aux]
      by_cases hov : seg.start < prev
      · rw [if_pos hov]
        by_cases hmid : round2 ((prev + seg.start) / 2) < prev_w.start + min_duration
        · simpa [hmid] using ih _ _ _ (by simp)
        · simpa [hmid] using ih _ _ _ (by simp)
      · rw [if_neg hov]
        exact ih _ _ _ (by simp)

theorem final_round_check_ne_i0 :
    ∀ (l : List Word) (prev : ℚ),
      final_round_check prev l ≠ Except.error "AssertionError: i > 0" := by
  intro l
  induction l with
  | nil => intro prev h; simp [final_round_check] at h
  | cons seg rest ih =>
    intro prev h
    rw [final_round_check] at h
    split at h
    · simp at h
    · split at h
      · simp at h
      · cases hr : final_round_check (round2 seg.end_) rest with
        | ok v =>
          rw [hr] at h
          simp [Bind.bind, Except.bind, Pure.pure, Except.pure] at h
        | error e =>
          rw [hr] at h
          simp only [Bind.bind, Except.bind, Except.error.injEq] at h
          exact ih _ (by rw [hr, h])

theorem ensure_pass_aux_head_start (min_duration : ℚ) :
    ∀ (l acc : List Word) (prev : ℚ) (mod : Bool) (out : List Word) (b : Bool),
      acc ≠ [] → ensure_pass_aux min_duration acc prev mod l = Except.ok (out, b) →
      out.head?.map Word.start = (acc.getLast?).map Word.start := by
  intro l
  induction l with
  | nil =>
    intro acc prev mod out b hacc h
    rw [ensure_pass_aux] at h
    simp only [Except.ok.injEq, Prod.mk.injEq] at h
    rw [← h.1, List.head?_reverse]
  | cons seg rest ih =>
    intro acc prev mod out b hacc h
    cases acc with
    | nil => exact absurd rfl hacc
    | cons prev_w acc_rest =>
      simp only [ensure_pass_aux] at h
      by_cases hov : seg.start < prev
      · rw [if_pos hov] at h
        by_cases hmid : round2 ((prev + seg.start) / 2) < prev_w.start + min_duration
        · rw [if_pos hmid] at h
          have hh := ih _ _ _ _ _ (by simp) h
          rw [hh]
          cases acc_rest <;> simp
        · rw [if_neg hmid] at h
          have hh := ih _ _ _ _ _ (by simp) h
          rw [hh]
          cases acc_rest <;> simp
      · rw [if_neg hov] at h
        have hh := ih _ _ _ _ _ (by simp) h
        rw [hh]
        cases acc_rest <;> simp

theorem enforce_min_start (m : ℚ) (w : Word) : (enforce_min m w).start = w.start := by
  unfold enforce_min; split <;> rfl

theorem ensure_pass_first_step (min_duration : ℚ) (w : Word) (rest : List Word)
    (hw : 0 ≤ w.start) :
    ensure_pass min_duration (w :: rest) =
      ensure_pass_aux min_duration [enforce_min min_duration w]
        (enforce_min min_duration w).end_ false rest := by
  rw [ensure_pass]
  simp only [ensure_pass_aux]
  rw [if_neg (not_lt.mpr hw)]

/-- C10 (confirmed): `ensure_increasing_positions` requires the first word to
start at a non-negative time.  The overlap-repair branch asserts `i > 0`; with
`words[0].start >= 0` that assertion branch is unreachable (the function never
fails with that assertion), while a first word with a negative start makes the
function fail the assertion instead of repairing. -/
theorem C10_first_word_nonneg :
    (∀ (min_duration : ℚ) (w : Word) (rest : List Word) (fuel : ℕ), 0 ≤ w.start →
        ensure_increasing_positions fuel (w :: rest) min_duration ≠
          Except.error "AssertionError: i > 0") ∧
    ensure_increasing_positions 1 [⟨"a", -1/2, 1⟩] (1/10) =
      Except.error "AssertionError: i > 0" := by
  constructor
  · intro min_duration w rest fuel
    induction fuel generalizing w rest with
    | zero => intro hw h; simp [ensure_increasing_positions] at h
    | succ fuel ih =>
      intro hw h
      rw [ensure_increasing_positions] at h
      have hstep := ensure_pass_first_step min_duration w rest hw
      cases hp : ensure_pass min_duration (w :: rest) with
      | error e =>
        rw [hp] at h
        simp only [Bind.bind, Except.bind, Except.error.injEq] at h
        rw [hstep] at hp
        exact ensure_pass_aux_ne_i0 min_duration rest [enforce_min min_duration w]
          (enforce_min min_duration w).end_ false (by simp) (by rw [hp, h])
      | ok pr =>
        rw [hp] at h
        simp only [Bind.bind, Except.bind] at h
        by_cases hb : pr.2
        · rw [hb] at h
          simp only [if_true] at h
          have hhead : pr.1.head?.map Word.start = some w.start := by
            rw [hstep] at hp
            have hh := ensure_pass_aux_head_start min_duration rest
              [enforce_min min_duration w] (enforce_min min_duration w).end_ false
              pr.1 pr.2 (by simp) (by rw [hp])
            rw [hh]
            simp [enforce_min_start]
          cases hout : pr.1 with
          | nil => rw [hout] at hhead; simp at hhead
          | cons w' rest' =>
            rw [hout] at hhead
            simp only [List.head?, Option.map_some'] at hhead
            have hw' : 0 ≤ w'.start := by
              have : w'.start = w.start := by simpa using hhead
              rw [this]; exact hw
            rw [hout] at h
            exact ih w' rest' hw' h
        · rw [Bool.not_eq_true] at hb
          rw [hb] at h
          simp only [if_false, Bool.false_eq_true] at h
          exact final_round_check_ne_i0 _ _ h
  · rw [ensure_increasing_positions]
    norm_num [ensure_pass, ensure_pass_aux, Bind.bind, Except.bind]

/-- C10 witness: a word list whose first word starts at `0` never hits the
`i > 0` assertion. -/
theorem C10_witness :
    ensure_increasing_positions 2 [⟨"a", 0, 1⟩] (1/10) ≠
      Except.error "AssertionError: i > 0" :=
  C10_first_word_nonneg.1 (1/10) ⟨"a", 0, 1⟩ [] 2 (by norm_num)

/-! ## Claim C3: postconditions of `ensure_increasing_positions` -/
theorem enforce_min_A (m : ℚ) (w : Word) :
    (enforce_min m w).start + m ≤ (enforce_min m w).end_ := by
  unfold enforce_min
  split
  · simp
  · next h => simpa using le_of_not_le h

/-- Every word in the output of a repair pass satisfies
`start + min_duration <= end` (the minimum-duration enforcement, preserved by
later backward adjustments). -/
theorem ensure_pass_aux_min_dur (min_duration : ℚ) :
    ∀ (l acc : List Word) (prev : ℚ) (mod : Bool) (out : List Word) (b : Bool),
      (∀ w ∈ acc, w.start + min_duration ≤ w.end_) →
      ensure_pass_aux min_duration acc prev mod l = Except.ok (out, b) →
      ∀ w ∈ out, w.start + min_duration ≤ w.end_ := by
  intro l
  induction l with
  | nil =>
    intro acc prev mod out b hacc h
    rw [ensure_pass_aux] at h
    simp only [Except.ok.injEq, Prod.mk.injEq] at h
    rw [← h.1]
    simpa using hacc
  | cons seg rest ih =>
    intro acc prev mod out b hacc h
    cases acc with
    | nil =>
      simp only [ensure_pass_aux] at h
      by_cases hov : seg.start < prev
      · rw [if_pos hov] at h; simp at h
      · rw [if_neg hov] at h
        refine ih _ _ _ _ _ ?_ h
        intro w hw
        rw [List.mem_cons] at hw
        rcases hw with hw | hw
        · rw [hw]; exact enforce_min_A _ _
        · simp at hw
    | cons prev_w acc_rest =>
      simp only [ensure_pass_aux] at h
      by_cases hov : seg.start < prev
      · rw [if_pos hov] at h
        by_cases hmid : round2 ((prev + seg.start) / 2) < prev_w.start + min_duration
        · rw [if_pos hmid] at h
          refine ih _ _ _ _ _ ?_ h
          intro w hw
          rw [List.mem_cons, List.mem_cons] at hw
          rcases hw with hw | hw | hw
          · rw [hw]; exact enforce_min_A _ _
          · rw [hw]; exact hacc _ (by simp)
          · exact hacc _ (by simp [hw])
        · rw [if_neg hmid] at h
          refine ih _ _ _ _ _ ?_ h
          intro w hw
          rw [List.mem_cons, List.mem_cons] at hw
          rcases hw with hw | hw | hw
          · rw [hw]; exact enforce_min_A _ _
          · rw [hw]; simpa using le_of_not_lt hmid
          · exact hacc _ (by simp [hw])
      · rw [if_neg hov] at h
        refine ih _ _ _ _ _ ?_ h
        intro w hw
        rw [List.mem_cons] at hw
        rcases hw with hw | hw
        · rw [hw]; exact enforce_min_A _ _
        · exact hacc _ hw

/-- A successful final pass returns exactly the input with both boundaries
rounded to hundredths. -/
theorem final_round_check_eq_map :
    ∀ (l : List Word) (prev : ℚ) (out : List Word),
      final_round_check prev l = Except.ok out →
      out = l.map fun w => ⟨w.text, round2 w.start, round2 w.end_⟩ := by
  intro l
  induction l with
  | nil => intro prev out h; simpa [final_round_check] using h.symm
  | cons seg rest ih =>
    intro prev out h
    rw [final_round_check] at h
    split at h
    · simp at h
    · split at h
      · simp at h
      · cases hr : final_round_check (round2 seg.end_) rest with
        | ok v =>
          rw [hr] at h
          simp only [Bind.bind, Except.bind, Pure.pure, Except.pure, Except.ok.injEq] at h
          rw [← h, ih _ _ hr]
          simp
        | error e =>
          rw [hr] at h
          simp [Bind.bind, Except.bind] at h

/-- A successful final pass guarantees that every word starts no earlier than
`prev`, has positive duration, and that adjacent words do not overlap. -/
theorem final_round_check_sound :
    ∀ (l : List Word) (prev : ℚ) (out : List Word),
      final_round_check prev l = Except.ok out →
      (∀ w ∈ out, prev ≤ w.start ∧ w.start < w.end_) ∧
      out.Chain' (fun a b => a.end_ ≤ b.start) := by
  intro l
  induction l with
  | nil =>
    intro prev out h
    rw [final_round_check] at h
    simp only [Except.ok.injEq] at h
    rw [← h]
    simp
  | cons seg rest ih =>
    intro prev out h
    rw [final_round_check] at h
    split at h
    · simp at h
    · split at h
      · simp at h
      · next h1 h2 =>
        rw [not_not] at h1
        rw [not_not] at h2
        cases hr : final_round_check (round2 seg.end_) rest with
        | ok v =>
          rw [hr] at h
          simp only [Bind.bind, Except.bind, Pure.pure, Except.pure, Except.ok.injEq] at h
          obtain ⟨hv, hch⟩ := ih _ _ hr
          rw [← h]
          constructor
          · intro w hw
            rw [List.mem_cons] at hw
            rcases hw with hw | hw
            · rw [hw]; exact ⟨h1, h2⟩
            · obtain ⟨hw1, hw2⟩ := hv w hw
              exact ⟨le_trans h1 (le_trans (le_of_lt h2) hw1), hw2⟩
          · rw [List.chain'_cons']
            refine ⟨?_, hch⟩
            intro y hy
            have hyv : y ∈ v := by
              cases v with
              | nil => simp at hy
              | cons a r => simp [List.head?] at hy; simp [hy]
            exact (hv y hyv).1
        | error e =>
          rw [hr] at h
          simp [Bind.bind, Except.bind] at h

/-- C3 (corrected): whenever `ensure_increasing_positions` returns — for every
`min_duration` — adjacent words do not overlap (`word[i+1].start >= word[i].end`)
and all boundaries are non-negative; and, additionally, provided `min_duration`
is an integer multiple of `0.01` (the rounding grid, as the default `0.1` is),
every word also keeps `end - start >= min_duration` through the final
rounding. -/
theorem C3_enforcer_postconditions (fuel : ℕ) (segments : List Word)
    (min_duration : ℚ) (out : List Word)
    (h : ensure_increasing_positions fuel segments min_duration = Except.ok out) :
    out.Chain' (fun a b => a.end_ ≤ b.start) ∧
    (∀ w ∈ out, 0 ≤ w.start ∧ 0 ≤ w.end_) ∧
    (∀ k : ℕ, min_duration = (k : ℚ) / 100 →
      ∀ w ∈ out, min_duration ≤ w.end_ - w.start) := by
  induction fuel generalizing segments with
  | zero => simp [ensure_increasing_positions] at h
  | succ fuel ih =>
    rw [ensure_increasing_positions] at h
    cases hp : ensure_pass min_duration segments with
    | error e => rw [hp] at h; simp [Bind.bind, Except.bind] at h
    | ok pr =>
      rw [hp] at h
      simp only [Bind.bind, Except.bind] at h
      by_cases hb : pr.2
      · rw [hb, if_pos rfl] at h
        exact ih _ h
      · rw [Bool.not_eq_true] at hb
        rw [hb] at h
        simp only [Bool.false_eq_true, if_false] at h
        have hA : ∀ w ∈ pr.1, w.start + min_duration ≤ w.end_ :=
          ensure_pass_aux_min_dur _ _ _ _ _ _ _ (by simp) hp
        have hmap := final_round_check_eq_map _ _ _ h
        obtain ⟨hmem, hch⟩ := final_round_check_sound _ _ _ h
        refine ⟨hch, ?_, ?_⟩
        · intro w hw
          obtain ⟨hw1, hw2⟩ := hmem w hw
          exact ⟨hw1, le_trans hw1 (le_of_lt hw2)⟩
        · intro k hk w hw
          rw [hmap, List.mem_map] at hw
          obtain ⟨v, hv, rfl⟩ := hw
          have hva := hA v hv
          have : round2 (v.start + min_duration) ≤ round2 v.end_ := round2_monotone hva
          rw [hk] at this ⊢
          rw [show ((k : ℚ) / 100) = (((k : ℤ) : ℚ) / 100) by push_cast; ring] at this ⊢
          rw [round2_add_intMul] at this
          simp only
          linarith

/-- C3 counterexample: with `min_duration = 0.103` (not a multiple of `0.01`),
the single word `(0, 0.05)` is first stretched to `(0, 0.103)` but the final
rounding returns `(0, 0.10)` — a duration strictly below `min_duration`,
refuting the claim as stated. -/
theorem C3_counterexample :
    ensure_increasing_positions 1 [⟨"a", 0, 1/20⟩] (103/1000) =
      Except.ok [⟨"a", 0, 1/10⟩] ∧ (1/10 : ℚ) - 0 < 103/1000 := by
  constructor
  · rw [ensure_increasing_positions]
    norm_num [ensure_pass, ensure_pass_aux, enforce_min, final_round_check,
      round2_eq, round_eq, Bind.bind, Except.bind, Pure.pure, Except.pure]
  · norm_num

/-- C3 witness: the overlapping pair `(0, 2), (1.5, 3)` with the default
`min_duration = 0.1` (which lies on the `0.01` grid, `0.1 = 10/100`) is
repaired to `(0, 1.75), (1.75, 3)`, which satisfies all three
postconditions. -/
theorem C3_witness :
    ([⟨"a", 0, 7/4⟩, ⟨"b", 7/4, 3⟩] : List Word).Chain' (fun a b => a.end_ ≤ b.start) ∧
    (∀ w ∈ ([⟨"a", 0, 7/4⟩, ⟨"b", 7/4, 3⟩] : List Word), 0 ≤ w.start ∧ 0 ≤ w.end_) ∧
    (∀ w ∈ ([⟨"a", 0, 7/4⟩, ⟨"b", 7/4, 3⟩] : List Word),
      (1/10 : ℚ) ≤ w.end_ - w.start) := by
  have h := C3_enforcer_postconditions 2 [⟨"a", 0, 2⟩, ⟨"b", 3/2, 3⟩] (1/10)
    [⟨"a", 0, 7/4⟩, ⟨"b", 7/4, 3⟩]
    (by norm_num [ensure_increasing_positions, ensure_pass, ensure_pass_aux, enforce_min,
      final_round_check, round2_eq, round_eq, Bind.bind, Except.bind, Pure.pure, Except.pure])
  exact ⟨h.1, h.2.1, h.2.2 10 (by norm_num)⟩

/-! ## Claim C7: termination of the backward-adjustment recursion -/
theorem enforce_min_id (m : ℚ) (w : Word) (h : w.start + m ≤ w.end_) :
    enforce_min m w = w := by
  unfold enforce_min
  split
  · next he =>
    have h2 : w.start + m = w.end_ := le_antisymm h he
    rw [h2]
  · rfl

/-- A successful repair pass leaves the processed words pairwise
non-overlapping: each word ends no later than the next one starts. -/
theorem ensure_pass_aux_chain (min_duration : ℚ) :
    ∀ (l acc : List Word) (prev : ℚ) (mod : Bool) (out : List Word) (b : Bool),
      acc.Chain' (fun a c => c.end_ ≤ a.start) →
      (∀ a, acc.head? = some a → prev = a.end_) →
      ensure_pass_aux min_duration acc prev mod l = Except.ok (out, b) →
      out.Chain' (fun a c => a.end_ ≤ c.start) := by
  intro l
  induction l with
  | nil =>
    intro acc prev mod out b hch hprev h
    rw [ensure_pass_aux] at h
    simp only [Except.ok.injEq, Prod.mk.injEq] at h
    rw [← h.1, List.chain'_reverse]
    exact hch
  | cons seg rest ih =>
    intro acc prev mod out b hch hprev h
    cases acc with
    | nil =>
      simp only [ensure_pass_aux] at h
      by_cases hov : seg.start < prev
      · rw [if_pos hov] at h; simp at h
      · rw [if_neg hov] at h
        exact ih _ _ _ _ _ (by simp) (by simp) h
    | cons prev_w acc_rest =>
      have hpe : prev = prev_w.end_ := hprev prev_w rfl
      simp only [ensure_pass_aux] at h
      by_cases hov : seg.start < prev
      · rw [if_pos hov] at h
        by_cases hmid : round2 ((prev + seg.start) / 2) < prev_w.start + min_duration
        · rw [if_pos hmid] at h
          refine ih _ _ _ _ _ ?_ (by simp) h
          rw [List.chain'_cons']
          refine ⟨?_, hch⟩
          intro y hy
          have hy' : prev_w = y := by simpa using hy
          subst hy'
          simp [enforce_min_start, hpe]
        · rw [if_neg hmid] at h
          refine ih _ _ _ _ _ ?_ (by simp) h
          rw [List.chain'_cons']
          constructor
          · intro y hy
            have hy' : (⟨prev_w.text, prev_w.start, round2 ((prev + seg.start) / 2)⟩ : Word) = y := by
              simpa using hy
            subst hy'
            simp [enforce_min_start]
          · rw [List.chain'_cons'] at hch ⊢
            refine ⟨?_, hch.2⟩
            intro y hy
            have := hch.1 y hy
            simpa using this
      · rw [if_neg hov] at h
        refine ih _ _ _ _ _ ?_ (by simp) h
        rw [List.chain'_cons']
        refine ⟨?_, hch⟩
        intro y hy
        have hy' : prev_w = y := by simpa using hy
        subst hy'
        rw [enforce_min_start]
        rw [hpe] at hov
        exact le_of_not_lt hov

/-- On a word list that already satisfies the minimum-duration and
non-overlap invariants the repair pass is the identity and performs no
backward adjustment. -/
theorem ensure_pass_aux_id (min_duration : ℚ) :
    ∀ (l acc : List Word) (prev : ℚ) (mod : Bool),
      (∀ w ∈ l, w.start + min_duration ≤ w.end_) →
      l.Chain' (fun a c => a.end_ ≤ c.start) →
      (∀ w, l.head? = some w → prev ≤ w.start) →
      ensure_pass_aux min_duration acc prev mod l = Except.ok (acc.reverse ++ l, mod) := by
  intro l
  induction l with
  | nil =>
    intro acc prev mod _ _ _
    rw [ensure_pass_aux]
    simp
  | cons seg rest ih =>
    intro acc prev mod hA hch hh
    have hs : prev ≤ seg.start := hh seg rfl
    have hid : enforce_min min_duration seg = seg := enforce_min_id _ _ (hA seg (by simp))
    have step : ∀ (acc' : List Word),
        ensure_pass_aux min_duration acc' prev mod (seg :: rest) =
          ensure_pass_aux min_duration (seg :: acc') seg.end_ mod rest := by
      intro acc'
      cases acc' with
      | nil =>
        simp only [ensure_pass_aux]
        rw [if_neg (not_lt.mpr hs), hid]
      | cons a r =>
        simp only [ensure_pass_aux]
        rw [if_neg (not_lt.mpr hs), hid]
    rw [step acc]
    rw [ih (seg :: acc) seg.end_ mod ?_ ?_ ?_]
    · simp
    · intro w hw; exact hA w (by simp [hw])
    · exact (List.chain'_cons'.mp hch).2
    · intro w hw
      exact (List.chain'_cons'.mp hch).1 w (by simp [hw])

theorem ensure_pass_ok_first_nonneg (min_duration : ℚ) (w : Word) (rest : List Word)
    (pr : List Word × Bool)
    (h : ensure_pass min_duration (w :: rest) = Except.ok pr) : 0 ≤ w.start := by
  by_contra hneg
  rw [not_le] at hneg
  rw [ensure_pass] at h
  simp only [ensure_pass_aux] at h
  rw [if_pos hneg] at h
  simp at h

/-- The fixed point of C7: a pass that performed a backward adjustment is
followed by a pass that changes nothing and adjusts nothing. -/
theorem ensure_pass_fixpoint (min_duration : ℚ) (segments out : List Word)
    (h : ensure_pass min_duration segments = Except.ok (out, true)) :
    ensure_pass min_duration out = Except.ok (out, false) := by
  have hA : ∀ w ∈ out, w.start + min_duration ≤ w.end_ :=
    ensure_pass_aux_min_dur _ _ _ _ _ _ _ (by simp) h
  have hch : out.Chain' (fun a c => a.end_ ≤ c.start) :=
    ensure_pass_aux_chain _ _ _ _ _ _ _ (by simp) (by simp) h
  have hhead : ∀ w', out.head? = some w' → 0 ≤ w'.start := by
    intro w' hw'
    cases segments with
    | nil =>
      rw [ensure_pass, ensure_pass_aux] at h
      simp at h
    | cons w0 rest =>
      have h0 : 0 ≤ w0.start := ensure_pass_ok_first_nonneg _ _ _ _ h
      have hstep := ensure_pass_first_step min_duration w0 rest h0
      rw [hstep] at h
      have := ensure_pass_aux_head_start min_duration rest
        [enforce_min min_duration w0] (enforce_min min_duration w0).end_ false
        out true (by simp) h
      rw [hw'] at this
      simp only [Option.map_some', List.getLast?_singleton] at this
      rw [enforce_min_start] at this
      have : w'.start = w0.start := by simpa using this
      rw [this]
      exact h0
  rw [ensure_pass]
  rw [ensure_pass_aux_id min_duration out [] 0 false hA hch hhead]
  simp

/-- The only error a repair pass can raise is the `i > 0` assertion — never
the fuel sentinel. -/
theorem ensure_pass_aux_error (min_duration : ℚ) :
    ∀ (l acc : List Word) (prev : ℚ) (mod : Bool) (e : String),
      ensure_pass_aux min_duration acc prev mod l = Except.error e →
      e = "AssertionError: i > 0" := by
  intro l
  induction l with
  | nil =>
    intro acc prev mod e h
    rw [ensure_pass_aux] at h
    exact Except.noConfusion h
  | cons seg rest ih =>
    intro acc prev mod e h
    cases acc with
    | nil =>
      simp only [ensure_pass_aux] at h
      by_cases hov : seg.start < prev
      · rw [if_pos hov] at h
        simp only [Except.error.injEq] at h
        exact h.symm
      · rw [if_neg hov] at h
        exact ih _ _ _ _ h
    | cons prev_w acc_rest =>
      simp only [ensure_pass_aux] at h
      by_cases hov : seg.start < prev
      · rw [if_pos hov] at h
        by_cases hmid : round2 ((prev + seg.start) / 2) < prev_w.start + min_duration
        · rw [if_pos hmid] at h
          exact ih _ _ _ _ h
        · rw [if_neg hmid] at h
          exact ih _ _ _ _ h
      · rw [if_neg hov] at h
        exact ih _ _ _ _ h

/-- The only errors the final rounding pass can raise are its two assertion
messages — never the fuel sentinel. -/
theorem final_round_check_error :
    ∀ (l : List Word) (prev : ℚ) (e : String),
      final_round_check prev l = Except.error e →
      e = "AssertionError: Got segment coming before the previous finishes" ∨
      e = "AssertionError: Got segment with end <= start" := by
  intro l
  induction l with
  | nil =>
    intro prev e h
    rw [final_round_check] at h
    exact Except.noConfusion h
  | cons seg rest ih =>
    intro prev e h
    rw [final_round_check] at h
    split at h
    · simp only [Except.error.injEq] at h
      exact Or.inl h.symm
    · split at h
      · simp only [Except.error.injEq] at h
        exact Or.inr h.symm
      · cases hr : final_round_check (round2 seg.end_) rest with
        | ok v =>
          rw [hr] at h
          simp [Bind.bind, Except.bind, Pure.pure, Except.pure] at h
        | error e2 =>
          rw [hr] at h
          simp only [Bind.bind, Except.bind, Except.error.injEq] at h
          subst h
          exact ih _ _ hr

/-- C7 (confirmed): `ensure_increasing_positions` terminates on every finite
word list — the backward-adjustment recursion reaches a fixed point after at
most one recursive re-run: there is a single result (never the
fuel-exhaustion sentinel, i.e. the recursion genuinely completes) that every
fuel bound of at least 2 computes. -/
theorem C7_enforcer_terminates (segments : List Word) (min_duration : ℚ) :
    ∃ r : Except String (List Word),
      (∀ fuel, 2 ≤ fuel →
        ensure_increasing_positions fuel segments min_duration = r) ∧
      r ≠ Except.error "recursion fuel exhausted" := by
  refine ⟨ensure_increasing_positions 2 segments min_duration, ?_, ?_⟩
  · intro fuel hfuel
    obtain ⟨k, rfl⟩ : ∃ k, fuel = k + 2 := ⟨fuel - 2, by omega⟩
    show ensure_increasing_positions (k + 2) segments min_duration =
        ensure_increasing_positions (1 + 1) segments min_duration
    rw [ensure_increasing_positions, ensure_increasing_positions]
    cases hp : ensure_pass min_duration segments with
    | error e => rfl
    | ok pr =>
      simp only [Bind.bind, Except.bind]
      by_cases hb : pr.2
      · rw [hb]
        simp only [if_pos rfl]
        have hfix : ensure_pass min_duration pr.1 = Except.ok (pr.1, false) := by
          refine ensure_pass_fixpoint min_duration segments pr.1 ?_
          rw [hp, ← hb]
        rw [ensure_increasing_positions, ensure_increasing_positions, hfix]
        simp [Bind.bind, Except.bind]
      · rw [Bool.not_eq_true] at hb
        rw [hb]
        simp
  · show ensure_increasing_positions (1 + 1) segments min_duration ≠
      Except.error "recursion fuel exhausted"
    rw [ensure_increasing_positions]
    cases hp : ensure_pass min_duration segments with
    | error e =>
      simp only [Bind.bind, Except.bind]
      intro hcontra
      rw [ensure_pass] at hp
      have he := ensure_pass_aux_error min_duration segments [] 0 false e hp
      rw [he] at hcontra
      simp only [Except.error.injEq] at hcontra
      exact absurd hcontra (by decide)
    | ok pr =>
      simp only [Bind.bind, Except.bind]
      by_cases hb : pr.2
      · rw [hb]
        simp only [if_pos rfl]
        have hfix : ensure_pass min_duration pr.1 = Except.ok (pr.1, false) := by
          refine ensure_pass_fixpoint min_duration segments pr.1 ?_
          rw [hp, ← hb]
        show ensure_increasing_positions (0 + 1) pr.1 min_duration ≠
          Except.error "recursion fuel exhausted"
        rw [ensure_increasing_positions, hfix]
        simp only [Bind.bind, Except.bind, Bool.false_eq_true, if_false]
        intro hcontra
        rcases final_round_check_error pr.1 0 _ hcontra with h1 | h1 <;>
          exact absurd h1 (by decide)
      · rw [Bool.not_eq_true] at hb
        rw [hb]
        simp only [Bool.false_eq_true, if_false]
        intro hcontra
        rcases final_round_check_error pr.1 0 _ hcontra with h1 | h1 <;>
          exact absurd h1 (by decide)

/-- C7 witness: on the overlapping pair `(0, 2), (1.5, 3)` (which does force a
backward adjustment) every sufficient fuel computes the same result and that
result is not the fuel-exhaustion sentinel: the recursion completed. -/
theorem C7_witness :
    ensure_increasing_positions 3 [⟨"a", 0, 2⟩, ⟨"b", 3/2, 3⟩] (1/10) =
      ensure_increasing_positions 2 [⟨"a", 0, 2⟩, ⟨"b", 3/2, 3⟩] (1/10) ∧
    ensure_increasing_positions 2 [⟨"a", 0, 2⟩, ⟨"b", 3/2, 3⟩] (1/10) ≠
      Except.error "recursion fuel exhausted" := by
  obtain ⟨r, hstab, hne⟩ := C7_enforcer_terminates [⟨"a", 0, 2⟩, ⟨"b", 3/2, 3⟩] (1/10)
  rw [hstab 3 (by norm_num), hstab 2 (by norm_num)]
  exact ⟨rfl, hne⟩

/-! ## Claim C4: the Silence/Confidence Filter decision -/
/-- C4 (code bug): with both thresholds configured, the filter deletes the
window's accumulated segments exactly when the no-speech probability exceeds
its threshold and the average log-probability does not exceed its own
(keeping only the still-open in-progress buffer), as the claim states; but in
the configuration the claim also covers — `logprob_threshold = None` with
`no_speech_prob` above the threshold — the deletion branch raises `NameError`
(the line-287 debug f-string references `avg_logprob`, which is only assigned
when a log-probability threshold is configured) instead of deleting. -/
theorem C4_silence_filter :
    (silence_filter ⟨sampleTokenizer, true, 0, false, some (3/5), none⟩
        ⟨[[5]], [], [], false, 0, some (9/10), [], [], true⟩ 0 =
      Except.error "NameError: name 'avg_logprob' is not defined") ∧
    (∀ (tok : Tokenizer) (us : Bool) (rf : ℕ) (rp : Bool) (nst lt nsp : ℚ)
        (s : TState) (i : ℕ),
      s.no_speech_prob = some nsp →
      s.chunk_logprobs.length = s.chunk_tokens_nosot.length + 1 →
      silence_filter ⟨tok, us, rf, rp, some nst, some lt⟩ s i =
        Except.ok { s with
          tok_indices :=
            if nst < nsp ∧ silence_avg_logprob tok s ≤ lt then
              s.tok_indices.take i ++ [s.tok_indices.getLastD []]
            else s.tok_indices,
          timestamped_word_segments :=
            if nst < nsp ∧ silence_avg_logprob tok s ≤ lt then
              s.timestamped_word_segments.take i
            else s.timestamped_word_segments,
          chunk_logprobs := [], chunk_tokens_nosot := [], no_speech_prob := none }) := by
  constructor
  · rw [silence_filter]
    norm_num [Bind.bind, Except.bind, Pure.pure, Except.pure]
  · intro tok us rf rp nst lt nsp s i hnsp hlen
    rw [silence_filter]
    have hlen2 : s.chunk_logprobs.length = (s.chunk_tokens_nosot ++ [tok.eot]).length := by
      simpa using hlen
    by_cases hskip : nst < nsp
    · have hd1 : decide (nst < nsp) = true := decide_eq_true hskip
      by_cases havg : lt < silence_avg_logprob tok s
      · have hd2 : decide (lt < silence_avg_logprob tok s) = true := decide_eq_true havg
        have hcond : ¬(nst < nsp ∧ silence_avg_logprob tok s ≤ lt) := fun hc =>
          absurd havg (not_lt.mpr hc.2)
        simp only [hnsp, Bind.bind, Except.bind, Pure.pure, Except.pure, hd1, hd2, hlen2]
        simp [if_neg hcond]
      · have hd2 : decide (lt < silence_avg_logprob tok s) = false :=
          decide_eq_false havg
        have hcond : nst < nsp ∧ silence_avg_logprob tok s ≤ lt := ⟨hskip, not_lt.mp havg⟩
        simp only [hnsp, Bind.bind, Except.bind, Pure.pure, Except.pure, hd1, hd2, hlen2]
        simp [if_pos hcond]
    · have hd1 : decide (nst < nsp) = false := decide_eq_false hskip
      have hcond : ¬(nst < nsp ∧ silence_avg_logprob tok s ≤ lt) := fun hc =>
        absurd hc.1 hskip
      simp only [hnsp, Bind.bind, Except.bind, Pure.pure, Except.pure, hd1]
      simp [if_neg hcond]

/-- C4 witness (the spec's scenario): no-speech probability `0.9` over
threshold `0.6`, average log-probability `-2` not above threshold `-1` —
the window's collected segments are deleted and only the still-open
in-progress buffer (`[7]`) survives. -/
theorem C4_witness :
    silence_filter ⟨sampleTokenizer, true, 0, false, some (3/5), some (-1)⟩
        ⟨[[5], [7]], [], [[⟨"x", 0, 1⟩]], false, 0, some (9/10),
          [[-2, -2, -2, -2], [-2, -2, -2, -2]], [0], true⟩ 0 =
      Except.ok ⟨[[7]], [], [], false, 0, none, [], [], true⟩ := by
  have h := C4_silence_filter.2 sampleTokenizer true 0 false (3/5) (-1) (9/10)
    ⟨[[5], [7]], [], [[⟨"x", 0, 1⟩]], false, 0, some (9/10),
      [[-2, -2, -2, -2], [-2, -2, -2, -2]], [0], true⟩ 0 rfl (by norm_num)
  rw [h]
  norm_num [silence_avg_logprob, sampleTokenizer, List.zip, List.zipWith, List.getD,
    List.get?, Int.toNat_ofNat, List.getElem_cons_succ, List.getElem_cons_zero]
  norm_num [show Int.toNat 3 = 3 from rfl]

theorem updateLast_ne_nil {α : Type} (f : α → α) (l : List α) (h : l ≠ []) :
    updateLast f l ≠ [] := by
  intro hc
  apply h
  have := updateLast_length f l
  rw [hc] at this
  exact List.length_eq_zero.mp this.symm

/-- Once the spaces-regrouping loop has opened a first word, the merge branch
always finds a previous word and the loop cannot fail. -/
theorem split_spaces_aux_ok :
    ∀ (pairs : List (String × List String)) (words : List String)
      (word_tokens : List (List String)) (prev : Option (String × List String)),
      words ≠ [] →
      ∃ r, split_spaces_aux words word_tokens prev pairs = Except.ok r := by
  intro pairs
  induction pairs with
  | nil => intro words wt prev _; exact ⟨(words, wt), rfl⟩
  | cons p rest ih =>
    intro words wt prev hw
    obtain ⟨subword, subword_tokens⟩ := p
    simp only [split_spaces_aux]
    split
    · exact ih _ _ _ (by simp)
    · rw [if_neg (by simpa [List.isEmpty_iff] using hw)]
      exact ih _ _ _ (updateLast_ne_nil _ _ hw)

/-- C9 (corrected): `split_tokens_on_spaces` is total under the precondition
that its first decoded unit opens a new word — it is a special marker
(token-span text starting with `"<|"`), or it starts with a space *and* its
stripped text is not punctuation.  Under that precondition the
`words[-1]`-merge branch is never reached with an empty word list; and for
some token list whose first decoded unit is bare non-special,
non-space-prefixed text (a lone punctuation character), the merge branch
indexes the empty list and the function fails. -/
theorem C9_spaces_totality :
    (∀ (T : Tokenizer) (tokens : List ℤ) (rp : Bool),
      (∀ w sp rest,
          (split_tokens_on_unicode tokens T rp).1.zip
              (split_tokens_on_unicode tokens T rp).2 = (w, sp) :: rest →
          pyStartsWith (sp.headD "") "<|" = true ∨
          (pyStartsWith w " " = true ∧ pyInStr (pyStrip w) _punctuation = false)) →
      ∃ r, split_tokens_on_spaces tokens T rp = Except.ok r) ∧
    ((split_tokens_on_unicode [1] punctTokenizer false).1 = [","] ∧
     split_tokens_on_spaces [1] punctTokenizer false =
       Except.error "IndexError: list index out of range") := by
  constructor
  · intro T tokens rp hfirst
    rw [split_tokens_on_spaces]
    cases hz : (split_tokens_on_unicode tokens T rp).1.zip
        (split_tokens_on_unicode tokens T rp).2 with
    | nil => exact ⟨([], []), rfl⟩
    | cons p rest =>
      obtain ⟨w, sp⟩ := p
      have hcond := hfirst w sp rest hz
      simp only [split_spaces_aux]
      have hbool : (pyStartsWith (sp.headD "") "<|" ||
          (pyStartsWith w " " && !pyInStr (pyStrip w) _punctuation) || false) = true := by
        rcases hcond with hc | ⟨hc1, hc2⟩
        · rw [Bool.or_false, Bool.or_eq_true]
          left
          exact hc
        · rw [Bool.or_false, Bool.or_eq_true]
          right
          rw [hc1, hc2]
          rfl
      rw [hbool]
      simp only [if_true]
      exact split_spaces_aux_ok rest [pyStrip w] [sp] (some (w, sp)) (by simp)
  · constructor
    · decide
    · decide

/-- C9 counterexample: the first decoded unit `" ,"` *does* start with a
space (satisfying the claim's stated precondition), yet it is punctuation, so
the regrouping still reaches the merge branch with an empty word list and
fails — the claimed precondition "special or starts with a space" is too
weak. -/
theorem C9_counterexample :
    pyStartsWith ((split_tokens_on_unicode [1] spacePunctTokenizer false).1.headD "") " " = true ∧
    split_tokens_on_spaces [1] spacePunctTokenizer false =
      Except.error "IndexError: list index out of range" := by
  constructor
  · decide
  · decide

/-- C9 witness: a token list whose first decoded unit is the special marker
`<|t|>` satisfies the precondition and splits without failure. -/
theorem C9_witness :
    ∃ r, split_tokens_on_spaces [15, 0] sampleTokenizer false = Except.ok r := by
  refine C9_spaces_totality.1 sampleTokenizer [15, 0] false ?_
  intro w sp rest h
  have hz : (split_tokens_on_unicode [15, 0] sampleTokenizer false).1.zip
      (split_tokens_on_unicode [15, 0] sampleTokenizer false).2 =
      [("<|t|>", ["<|t|>"]), (" a", ["a"])] := by decide
  rw [hz] at h
  rw [List.cons.injEq] at h
  obtain ⟨hp, -⟩ := h
  rw [Prod.mk.injEq] at hp
  obtain ⟨hw, hsp⟩ := hp
  left
  rw [← hsp]
  decide

/-! ## Claim C8: what the Word Segmenter preserves -/
theorem updateLast_flatten_append {α : Type} :
    ∀ (l : List (List α)), l ≠ [] → ∀ (x : List α),
      (updateLast (· ++ x) l).flatten = l.flatten ++ x := by
  intro l
  induction l with
  | nil => intro h; exact absurd rfl h
  | cons a rest ih =>
    intro _ x
    cases rest with
    | nil => simp [updateLast]
    | cons b r =>
      simp only [updateLast, List.flatten_cons]
      rw [ih (by simp) x]
      simp

theorem split_unicode_aux_length (T : Tokenizer) (rp : Bool) :
    ∀ (l : List ℤ) (words : List String) (wt : List (List String)) (current : List ℤ),
      words.length = wt.length →
      (split_unicode_aux T rp words wt current l).1.length =
        (split_unicode_aux T rp words wt current l).2.length := by
  intro l
  induction l with
  | nil => intro words wt current h; simpa [split_unicode_aux] using h
  | cons t rest ih =>
    intro words wt current h
    simp only [split_unicode_aux]
    split
    · exact ih _ _ _ h
    · split
      · refine ih _ _ _ ?_
        by_cases he : words.isEmpty
        · cases rp <;> simp [he, updateLast_length]
        · cases rp <;> simp [he, updateLast_length, h]
      · exact ih _ _ _ (by simp [h])

theorem split_unicode_aux_flatten (T : Tokenizer) (rp : Bool) :
    ∀ (l : List ℤ) (words : List String) (wt : List (List String)) (current : List ℤ),
      words.length = wt.length →
      (split_unicode_aux T rp words wt current l).2.flatten =
        wt.flatten ++ ((unicode_chunks T current l).1).map (fun c => pyStrip c.2) := by
  intro l
  induction l with
  | nil => intro words wt current h; simp [split_unicode_aux, unicode_chunks]
  | cons t rest ih =>
    intro words wt current h
    simp only [split_unicode_aux, unicode_chunks]
    split
    · exact ih _ _ _ h
    · split
      · by_cases he : words.isEmpty = true
        · have hwt : wt = [] := by
            rw [List.isEmpty_iff] at he
            rw [he] at h
            exact List.length_eq_zero.mp h.symm
          simp only [if_pos he]
          rw [ih _ _ _ (by cases rp <;> simp [updateLast_length])]
          rw [hwt]
          simp [updateLast]
        · simp only [if_neg he]
          have hwt : wt ≠ [] := by
            intro hc
            rw [hc] at h
            rw [List.isEmpty_iff] at he
            exact he (List.length_eq_zero.mp h)
          rw [ih _ _ _ (by cases rp <;> simp [updateLast_length, h])]
          rw [updateLast_flatten_append wt hwt]
          simp
      · rw [ih _ _ _ (by simp [h])]
        simp

/-- The unicode-complete chunks partition the consumed tokens in order: their
concatenation followed by the never-completed trailing remainder reproduces
the input. -/
theorem unicode_chunks_partition (T : Tokenizer) :
    ∀ (l current : List ℤ),
      ((unicode_chunks T current l).1.map Prod.fst).flatten ++ (unicode_chunks T current l).2 =
        current ++ l := by
  intro l
  induction l with
  | nil => intro current; simp [unicode_chunks]
  | cons t rest ih =>
    intro current
    simp only [unicode_chunks]
    split
    · rw [ih (current ++ [t])]
      simp
    · simp only [List.map_cons, List.flatten_cons, List.append_assoc]
      rw [ih []]
      simp

/-- Punctuation removal changes only the word texts: the token spans of the
unicode split are the same with and without `remove_punctuation_from_words`. -/
theorem split_unicode_aux_rp_irrelevant (T : Tokenizer) :
    ∀ (l : List ℤ) (words1 words2 : List String) (wt : List (List String))
      (current : List ℤ), words1.length = words2.length →
      (split_unicode_aux T true words1 wt current l).2 =
        (split_unicode_aux T false words2 wt current l).2 := by
  intro l
  induction l with
  | nil => intro words1 words2 wt current _; simp [split_unicode_aux]
  | cons t rest ih =>
    intro words1 words2 wt current h
    simp only [split_unicode_aux]
    split
    · exact ih _ _ _ _ h
    · split
      · have he : words1.isEmpty = words2.isEmpty := by
          cases words1 with
          | nil =>
            cases words2 with
            | nil => rfl
            | cons _ _ => simp at h
          | cons _ _ =>
            cases words2 with
            | nil => simp at h
            | cons _ _ => rfl
        rw [he]
        by_cases h2 : words2.isEmpty = true
        · simp only [if_pos h2]
          exact ih _ _ _ _ (by simp [updateLast_length])
        · simp only [if_neg h2]
          exact ih _ _ _ _ (by simp [updateLast_length, h])
      · exact ih _ _ _ _ (by simp [h])

/-- The spaces-mode regrouping reassigns the unicode spans to words without
dropping or duplicating a span element. -/
theorem split_spaces_aux_flatten :
    ∀ (pairs : List (String × List String)) (words : List String)
      (wt : List (List String)) (prev : Option (String × List String))
      (r : List String × List (List String)),
      words ≠ [] → words.length = wt.length →
      split_spaces_aux words wt prev pairs = Except.ok r →
      r.2.flatten = wt.flatten ++ (pairs.map Prod.snd).flatten := by
  intro pairs
  induction pairs with
  | nil =>
    intro words wt prev r _ _ h
    rw [split_spaces_aux] at h
    simp only [Except.ok.injEq] at h
    rw [← h]
    simp
  | cons p rest ih =>
    intro words wt prev r hw hlen h
    obtain ⟨subword, subword_tokens⟩ := p
    simp only [split_spaces_aux] at h
    split at h
    · rw [ih _ _ _ _ (by simp) (by simp [hlen]) h]
      simp
    · rw [if_neg (by simpa [List.isEmpty_iff] using hw)] at h
      have hwt : wt ≠ [] := by
        intro hc
        rw [hc] at hlen
        exact hw (List.length_eq_zero.mp hlen)
      rw [ih _ _ _ _ (updateLast_ne_nil _ _ hw)
        (by rw [updateLast_length, updateLast_length, hlen]) h]
      rw [updateLast_flatten_append wt hwt]
      simp

/-- C8 (corrected): what the segmenter actually preserves.  In both modes the
concatenated per-word spans list exactly the stripped decoded texts of the
successive unicode-complete chunks, in order, with none dropped or
duplicated — also when punctuation removal is requested (it changes word
texts only).  The chunks in turn partition the consumed prefix of the token
sequence (tokens of a trailing never-completed chunk are dropped).  The spans
hold decoded strings, not the integer tokens themselves, and a multi-token
chunk contributes a single span entry, so concatenating spans does not in
general reconstruct the token sequence. -/
theorem C8_segmenter_span_preservation :
    (∀ (T : Tokenizer) (tokens : List ℤ) (rp : Bool),
        (split_tokens_on_unicode tokens T rp).2.flatten =
          ((unicode_chunks T [] tokens).1).map (fun c => pyStrip c.2)) ∧
    (∀ (T : Tokenizer) (tokens : List ℤ),
        ((unicode_chunks T [] tokens).1.map Prod.fst).flatten ++
          (unicode_chunks T [] tokens).2 = tokens) ∧
    (∀ (T : Tokenizer) (tokens : List ℤ),
        (split_tokens_on_unicode tokens T true).2 =
          (split_tokens_on_unicode tokens T false).2) ∧
    (∀ (T : Tokenizer) (tokens : List ℤ) (rp : Bool)
        (r : List String × List (List String)),
        split_tokens_on_spaces tokens T rp = Except.ok r →
        r.2.flatten = (split_tokens_on_unicode tokens T rp).2.flatten) := by
  refine ⟨?_, ?_, ?_, ?_⟩
  · intro T tokens rp
    simpa using split_unicode_aux_flatten T rp tokens [] [] [] rfl
  · intro T tokens
    simpa using unicode_chunks_partition T tokens []
  · intro T tokens
    exact split_unicode_aux_rp_irrelevant T tokens [] [] [] [] rfl
  · intro T tokens rp r h
    have hlen := split_unicode_aux_length T rp tokens [] [] [] rfl
    rw [split_tokens_on_spaces] at h
    have hmz : ((split_tokens_on_unicode tokens T rp).1.zip
        (split_tokens_on_unicode tokens T rp).2).map Prod.snd =
        (split_tokens_on_unicode tokens T rp).2 :=
      List.map_snd_zip _ _ (le_of_eq hlen.symm)
    cases hz : (split_tokens_on_unicode tokens T rp).1.zip
        (split_tokens_on_unicode tokens T rp).2 with
    | nil =>
      rw [hz] at h
      rw [split_spaces_aux] at h
      simp only [Except.ok.injEq] at h
      rw [← h]
      have h2 : (split_tokens_on_unicode tokens T rp).2 = [] := by
        rw [← hmz, hz]
        rfl
      rw [h2]
    | cons p rest =>
      obtain ⟨w, sp⟩ := p
      rw [hz] at h
      simp only [split_spaces_aux] at h
      split at h
      · have hfl := split_spaces_aux_flatten rest [pyStrip w] [sp] (some (w, sp)) r
          (by simp) (by simp) h
        rw [hfl]
        have h2 : sp :: rest.map Prod.snd = (split_tokens_on_unicode tokens T rp).2 := by
          rw [← hmz, hz]
          rfl
        rw [← h2]
        simp
      · simp at h

/-- C8 counterexample: the two tokens `[1, 1]` decode to a single
unicode-complete chunk, so the returned spans contain exactly one entry (the
decoded string `"aa"`), not two tokens — concatenating the spans cannot
reconstruct the two-token input, in either segmentation mode. -/
theorem C8_counterexample :
    (split_tokens_on_unicode [1, 1] multiTokenChunkTokenizer false).2 = [["aa"]] ∧
    (split_tokens_on_unicode [1, 1] multiTokenChunkTokenizer false).2.flatten.length = 1 ∧
    ([1, 1] : List ℤ).length = 2 := by
  refine ⟨by decide, by decide, rfl⟩

/-- C8 witness: on `[15, 0]` with the sample tokenizer, the spaces-mode spans
flatten to the unicode-mode spans (nothing dropped or duplicated). -/
theorem C8_witness :
    ([["<|t|>"], ["a"]] : List (List String)).flatten =
      (split_tokens_on_unicode [15, 0] sampleTokenizer false).2.flatten := by
  have h := C8_segmenter_span_preservation.2.2.2 sampleTokenizer [15, 0] false
    (["<|t|>", "a"], [["<|t|>"], ["a"]]) (by decide)
  simpa using h

theorem dtwCost_none_of_gt (w : ℕ → ℕ → ℚ) :
    ∀ (j i : ℕ), j < i → dtwCost w i j = none := by
  intro j
  induction j with
  | zero =>
    intro i h
    match i, h with
    | i + 1, _ => rw [dtwCost]
  | succ j ih =>
    intro i h
    match i, h with
    | i + 1, h =>
      rw [dtwCost]
      rw [ih i (by omega), ih (i + 1) (by omega)]

theorem dtwCost_isSome_of_le (w : ℕ → ℕ → ℚ) :
    ∀ (j i : ℕ), i ≤ j → (dtwCost w i j).isSome = true := by
  intro j
  induction j with
  | zero =>
    intro i h
    match i, h with
    | 0, _ => rw [dtwCost]; rfl
  | succ j ih =>
    intro i h
    match i with
    | 0 =>
      rw [dtwCost]
      have := ih 0 (Nat.zero_le j)
      rw [Option.isSome_iff_exists] at this
      obtain ⟨a, ha⟩ := this
      rw [ha]
      rfl
    | i + 1 =>
      rw [dtwCost]
      have h1 := ih i (by omega)
      rw [Option.isSome_iff_exists] at h1
      obtain ⟨a, ha⟩ := h1
      rw [ha]
      cases hb : dtwCost w (i + 1) j <;> rfl

theorem dtwPathAux_spec (w : ℕ → ℕ → ℚ) :
    ∀ (j i : ℕ), i ≤ j →
      (dtwPathAux w i j).Chain' StepRel ∧
      (dtwPathAux w i j).head? = some (0, 0) ∧
      (dtwPathAux w i j).getLast? = some (i, j) := by
  intro j
  induction j with
  | zero =>
    intro i h
    match i, h with
    | 0, _ =>
      rw [dtwPathAux]
      exact ⟨by simp, rfl, rfl⟩
  | succ j ih =>
    intro i h
    have append_case : ∀ (i' : ℕ), i' ≤ j → StepRel (i', j) (i, j + 1) →
        (dtwPathAux w i' j ++ [(i, j + 1)]).Chain' StepRel ∧
        (dtwPathAux w i' j ++ [(i, j + 1)]).head? = some (0, 0) ∧
        (dtwPathAux w i' j ++ [(i, j + 1)]).getLast? = some (i, j + 1) := by
      intro i' hij hstep
      obtain ⟨hch, hhd, hlast⟩ := ih i' hij
      refine ⟨?_, ?_, ?_⟩
      · rw [List.chain'_append]
        refine ⟨hch, by simp, ?_⟩
        intro x hx y hy
        rw [hlast] at hx
        simp only [Option.mem_def, Option.some.injEq] at hx
        simp only [List.head?_cons, Option.mem_def, Option.some.injEq] at hy
        rw [← hx, ← hy]
        exact hstep
      · rw [List.head?_append, hhd]
        rfl
      · rw [List.getLast?_concat]
    match i with
    | 0 =>
      rw [dtwPathAux]
      exact append_case 0 (Nat.zero_le j) ⟨Or.inl rfl, rfl⟩
    | i + 1 =>
      have hij : i ≤ j := by omega
      rw [dtwPathAux]
      have h1 := dtwCost_isSome_of_le w j i hij
      rw [Option.isSome_iff_exists] at h1
      obtain ⟨a, ha⟩ := h1
      rw [ha]
      cases hb : dtwCost w (i + 1) j with
      | none =>
        exact append_case i hij ⟨Or.inr rfl, rfl⟩
      | some b =>
        have hij2 : i + 1 ≤ j := by
          by_contra hc
          rw [dtwCost_none_of_gt w j (i + 1) (by omega)] at hb
          cases hb
        dsimp only
        by_cases hab : a ≤ b
        · rw [if_pos hab]
          exact append_case i hij ⟨Or.inr rfl, rfl⟩
        · rw [if_neg hab]
          exact append_case (i + 1) hij2 ⟨Or.inl rfl, rfl⟩

/-- Each unicode-complete chunk consumes at least one token, so there are at
most as many chunks as tokens. -/
theorem unicode_chunks_count_le (T : Tokenizer) :
    ∀ (l current : List ℤ), (unicode_chunks T current l).1.length ≤ l.length := by
  intro l
  induction l with
  | nil => intro current; simp [unicode_chunks]
  | cons t rest ih =>
    intro current
    simp only [unicode_chunks]
    split
    · exact le_trans (ih (current ++ [t])) (by simp)
    · simpa using ih []

/-- On success, `split_tokens_on_spaces` regroups exactly the flattened spans
of the unicode split. -/
theorem split_spaces_flatten_of_ok (T : Tokenizer) (tokens : List ℤ) (rp : Bool)
    (r : List String × List (List String))
    (h : split_tokens_on_spaces tokens T rp = Except.ok r) :
    r.2.flatten = (split_tokens_on_unicode tokens T rp).2.flatten := by
  have hlen := split_unicode_aux_length T rp tokens [] [] [] rfl
  rw [split_tokens_on_spaces] at h
  have hmz : ((split_tokens_on_unicode tokens T rp).1.zip
      (split_tokens_on_unicode tokens T rp).2).map Prod.snd =
      (split_tokens_on_unicode tokens T rp).2 :=
    List.map_snd_zip _ _ (le_of_eq hlen.symm)
  cases hz : (split_tokens_on_unicode tokens T rp).1.zip
      (split_tokens_on_unicode tokens T rp).2 with
  | nil =>
    rw [hz] at h
    rw [split_spaces_aux] at h
    simp only [Except.ok.injEq] at h
    rw [← h]
    have h2 : (split_tokens_on_unicode tokens T rp).2 = [] := by
      rw [← hmz, hz]
      rfl
    rw [h2]
  | cons p rest =>
    obtain ⟨w, sp⟩ := p
    rw [hz] at h
    simp only [split_spaces_aux] at h
    split at h
    · have hfl := split_spaces_aux_flatten rest [pyStrip w] [sp] (some (w, sp)) r
        (by simp) (by simp) h
      rw [hfl]
      have h2 : sp :: rest.map Prod.snd = (split_tokens_on_unicode tokens T rp).2 := by
        rw [← hmz, hz]
        rfl
      rw [← h2]
      simp
    · simp at h

theorem scanl_add_mem_ge :
    ∀ (lens : List ℕ) (init y : ℕ), y ∈ List.scanl (· + ·) init lens → init ≤ y := by
  intro lens
  induction lens with
  | nil =>
    intro init y hy
    rw [List.scanl_nil, List.mem_singleton] at hy
    omega
  | cons x t ih =>
    intro init y hy
    rw [List.scanl_cons, List.singleton_append, List.mem_cons] at hy
    rcases hy with hy | hy
    · omega
    · have := ih (init + x) y hy
      omega

theorem scanl_add_pairwise :
    ∀ (lens : List ℕ) (init : ℕ), (List.scanl (· + ·) init lens).Pairwise (· ≤ ·) := by
  intro lens
  induction lens with
  | nil => intro init; simp
  | cons x t ih =>
    intro init
    rw [List.scanl_cons, List.singleton_append]
    refine List.Pairwise.cons ?_ (ih (init + x))
    intro y hy
    have := scanl_add_mem_ge t (init + x) y hy
    omega

theorem scanl_add_mem_le :
    ∀ (lens : List ℕ) (init y : ℕ), y ∈ List.scanl (· + ·) init lens →
      y ≤ init + lens.sum := by
  intro lens
  induction lens with
  | nil =>
    intro init y hy
    rw [List.scanl_nil, List.mem_singleton] at hy
    omega
  | cons x t ih =>
    intro init y hy
    rw [List.scanl_cons, List.singleton_append, List.mem_cons] at hy
    rw [List.sum_cons]
    rcases hy with hy | hy
    · omega
    · have := ih (init + x) y hy
      omega

theorem pairwise_le_getElem {α : Type} [Preorder α] (l : List α)
    (h : l.Pairwise (· ≤ ·)) (i j : ℕ) (hi : i < l.length) (hj : j < l.length)
    (hij : i ≤ j) : l[i] ≤ l[j] := by
  rcases Nat.lt_or_ge i j with hlt | hge
  · exact List.pairwise_iff_getElem.mp h i j hi hj hlt
  · have : i = j := by omega
    subst this
    exact le_refl _

theorem jumpSelect_sublist :
    ∀ (p : List (ℕ × ℕ)) (c : Option ℕ), (jumpSelect c p).Sublist (p.map Prod.snd) := by
  intro p
  induction p with
  | nil => intro c; cases c <;> simp [jumpSelect]
  | cons a rest ih =>
    intro c
    cases c with
    | none =>
      rw [jumpSelect, List.map_cons]
      exact (ih (some a.1)).cons₂ a.2
    | some prev =>
      rw [jumpSelect, List.map_cons]
      split
      · exact (ih (some a.1)).cons₂ a.2
      · exact (ih (some a.1)).cons a.2

/-- Along a step-pattern path the frame index is strictly increasing. -/
theorem path_snd_chain (p : List (ℕ × ℕ)) (h : p.Chain' StepRel) :
    (p.map Prod.snd).Chain' (· < ·) := by
  rw [List.chain'_map]
  refine h.imp fun a b hab => ?_
  obtain ⟨h1, h2⟩ := hab
  omega

theorem chain_lt_le_getLast :
    ∀ (l : List ℕ) (x : ℕ), l.Pairwise (· < ·) → l.getLast? = some x →
      ∀ y ∈ l, y ≤ x := by
  intro l
  induction l with
  | nil => intro x _ hx; cases hx
  | cons a t ih =>
    intro x hp hx y hy
    rw [List.mem_cons] at hy
    rw [List.pairwise_cons] at hp
    cases t with
    | nil =>
      simp only [List.getLast?_singleton, Option.some.injEq] at hx
      rcases hy with hy | hy
      · omega
      · cases hy
    | cons b r =>
      rw [List.getLast?_cons_cons] at hx
      have hxl : x ∈ b :: r := by
        obtain ⟨hne, hxe⟩ := List.mem_getLast?_eq_getLast (Option.mem_def.mpr hx)
        rw [hxe]
        exact List.getLast_mem hne
      rcases hy with hy | hy
      · have := hp.1 x hxl
        omega
      · exact ih x hp.2 hx y hy

/-- Length of the selected jumps: one per distinct token index reached. -/
theorem jumpSelect_length_aux :
    ∀ (p : List (ℕ × ℕ)) (prev : ℕ), p.Chain' StepRel →
      (∀ a ∈ p.head?, a.1 = prev ∨ a.1 = prev + 1) →
      (jumpSelect (some prev) p).length + prev =
        ((p.getLast?.map Prod.fst).getD prev) := by
  intro p
  induction p with
  | nil => intro prev _ _; simp [jumpSelect]
  | cons a rest ih =>
    intro prev hch hhd
    have hhda : a.1 = prev ∨ a.1 = prev + 1 := hhd a (by simp)
    rw [List.chain'_cons'] at hch
    have hrest_hd : ∀ b ∈ rest.head?, b.1 = a.1 ∨ b.1 = a.1 + 1 := by
      intro b hb
      have := hch.1 b hb
      rcases this with ⟨h1, _⟩
      omega
    have hih := ih a.1 hch.2 hrest_hd
    have hznil : jumpSelect (some a.1) ([] : List (ℕ × ℕ)) = [] := rfl
    rcases hhda with hpe | hps
    · rw [jumpSelect, if_neg (by omega)]
      cases rest with
      | nil =>
        have hg : (((a :: ([] : List (ℕ × ℕ))).getLast?.map Prod.fst).getD prev) = a.1 := rfl
        rw [hznil, hg, List.length_nil]
        omega
      | cons b r =>
        rw [List.getLast?_cons_cons]
        have hne : (b :: r).getLast? = some ((b :: r).getLast (by simp)) :=
          List.getLast?_eq_getLast _ (by simp)
        rw [hne] at hih ⊢
        simp only [Option.map_some', Option.getD_some] at hih ⊢
        omega
    · rw [jumpSelect, if_pos (by omega)]
      cases rest with
      | nil =>
        have hg : (((a :: ([] : List (ℕ × ℕ))).getLast?.map Prod.fst).getD prev) = a.1 := rfl
        rw [hznil, hg, List.length_cons, List.length_nil]
        omega
      | cons b r =>
        rw [List.getLast?_cons_cons]
        have hne : (b :: r).getLast? = some ((b :: r).getLast (by simp)) :=
          List.getLast?_eq_getLast _ (by simp)
        rw [hne] at hih ⊢
        simp only [Option.map_some', Option.getD_some, List.length_cons] at hih ⊢
        omega

theorem jumpSelect_none_length (p : List (ℕ × ℕ)) (q : ℕ × ℕ)
    (hch : p.Chain' StepRel) (hhd : p.head? = some (0, 0))
    (hlast : p.getLast? = some q) :
    (jumpSelect none p).length = q.1 + 1 := by
  cases p with
  | nil => cases hhd
  | cons a rest =>
    have ha : a = (0, 0) := by simpa using hhd
    subst ha
    rw [List.chain'_cons'] at hch
    rw [jumpSelect, List.length_cons]
    have hrest_hd : ∀ b ∈ rest.head?, b.1 = 0 ∨ b.1 = 0 + 1 := by
      intro b hb
      have := hch.1 b hb
      rcases this with ⟨h1, _⟩
      simp only at h1
      omega
    have hih := jumpSelect_length_aux rest 0 hch.2 hrest_hd
    cases rest with
    | nil =>
      have hq : q = (0, 0) := by
        have : ([((0 : ℕ), (0 : ℕ))]).getLast? = some (0, 0) := rfl
        rw [this] at hlast
        exact ((Option.some.injEq _ _).mp hlast).symm
      rw [hq]
      rfl
    | cons b r =>
      rw [List.getLast?_cons_cons] at hlast
      rw [hlast] at hih
      simp only [Option.map_some', Option.getD_some] at hih
      dsimp only
      omega

/-- Every selected jump frame is bounded by the final frame index of the path. -/
theorem jumpSelect_le (p : List (ℕ × ℕ)) (q : ℕ × ℕ)
    (hch : p.Chain' StepRel) (hlast : p.getLast? = some q) :
    ∀ y ∈ jumpSelect none p, y ≤ q.2 := by
  intro y hy
  have hmem : y ∈ p.map Prod.snd := (jumpSelect_sublist p none).subset hy
  have hpw : (p.map Prod.snd).Pairwise (· < ·) :=
    List.chain'_iff_pairwise.mp (path_snd_chain p hch)
  have hlast2 : (p.map Prod.snd).getLast? = some q.2 := by
    rw [List.getLast?_map, hlast]
    rfl
  exact chain_lt_le_getLast (p.map Prod.snd) q.2 hpw hlast2 y hmem

theorem getD_eq_getElem_of_lt {α : Type} (l : List α) (d : α) (i : ℕ)
    (h : i < l.length) : l.getD i d = l[i] := by
  rw [List.getD_eq_getElem?_getD, List.getElem?_eq_getElem h, Option.getD_some]

/-- Indexing a sorted timestamp table (`jump_times`) at the sorted cumulative
word boundaries: both the begin- and end-time tables are sorted and pointwise
ordered (`begin_times[i] <= end_times[i]`). -/
theorem map_getD_pointwise (wb : List ℕ) (jt : List ℚ)
    (hwb : wb.Pairwise (· ≤ ·)) (hjt : jt.Pairwise (· ≤ ·))
    (hlt : ∀ y ∈ wb, y < jt.length) :
    ((wb.dropLast.map fun b => jt.getD b 0).Pairwise (· ≤ ·)) ∧
    (((wb.drop 1).map fun b => jt.getD b 0).Pairwise (· ≤ ·)) ∧
    (∀ (i : ℕ) (h1 : i < (wb.dropLast.map fun b => jt.getD b 0).length)
       (h2 : i < ((wb.drop 1).map fun b => jt.getD b 0).length),
       (wb.dropLast.map fun b => jt.getD b 0)[i] ≤
         ((wb.drop 1).map fun b => jt.getD b 0)[i]) := by
  have hmono : ∀ a ∈ wb, ∀ b ∈ wb, a ≤ b → jt.getD a 0 ≤ jt.getD b 0 := by
    intro a ha b hb hab
    rw [getD_eq_getElem_of_lt jt 0 a (hlt a ha), getD_eq_getElem_of_lt jt 0 b (hlt b hb)]
    exact pairwise_le_getElem jt hjt a b (hlt a ha) (hlt b hb) hab
  refine ⟨?_, ?_, ?_⟩
  · rw [List.pairwise_map]
    have hsub : wb.dropLast.Sublist wb := List.dropLast_sublist wb
    refine (hwb.sublist hsub).imp_of_mem ?_
    intro a b ha hb hab
    exact hmono a (hsub.subset ha) b (hsub.subset hb) hab
  · rw [List.pairwise_map]
    have hsub : (wb.drop 1).Sublist wb := List.drop_sublist 1 wb
    refine (hwb.sublist hsub).imp_of_mem ?_
    intro a b ha hb hab
    exact hmono a (hsub.subset ha) b (hsub.subset hb) hab
  · intro i h1 h2
    rw [List.length_map, List.length_dropLast] at h1
    rw [List.length_map, List.length_drop] at h2
    have hi1 : i < wb.length := by omega
    have hi2 : i + 1 < wb.length := by omega
    have e1 : getElem (wb.dropLast.map fun b => jt.getD b 0) i
        (by rw [List.length_map, List.length_dropLast]; omega) = jt.getD wb[i] 0 := by
      rw [List.getElem_map, List.getElem_dropLast]
    have e2 : getElem ((wb.drop 1).map fun b => jt.getD b 0) i
        (by rw [List.length_map, List.length_drop]; omega) = jt.getD wb[1 + i] 0 := by
      rw [List.getElem_map, List.getElem_drop]
    rw [e1, e2]
    have h1i : (1 : ℕ) + i = i + 1 := by omega
    refine hmono wb[i] (List.getElem_mem hi1) wb[1 + i] (List.getElem_mem (by omega)) ?_
    have := pairwise_le_getElem wb hwb i (1 + i) hi1 (by omega) (by omega)
    exact this

/-- The `begin_times[1] = begin_times[0]` / `end_times[-2] = end_times[-1]`
fixups keep the tables pointwise ordered when both are sorted. -/
theorem set_fixup_pointwise (bt et : List ℚ)
    (hbt : bt.Pairwise (· ≤ ·)) (het : et.Pairwise (· ≤ ·))
    (hlen : bt.length = et.length) (h2len : 2 ≤ bt.length)
    (hpt : ∀ (i : ℕ) (h1 : i < bt.length) (h2 : i < et.length), bt[i] ≤ et[i]) :
    ∀ (i : ℕ) (h1 : i < (bt.set 1 (bt.getD 0 0)).length)
      (h2 : i < (et.set (et.length - 2) (et.getD (et.length - 1) 0)).length),
      (bt.set 1 (bt.getD 0 0))[i] ≤
        (et.set (et.length - 2) (et.getD (et.length - 1) 0))[i] := by
  intro i h1 h2
  rw [List.length_set] at h1 h2
  have hbL : getElem (bt.set 1 (bt.getD 0 0)) i (by rw [List.length_set]; omega) ≤ bt[i] := by
    rw [List.getElem_set]
    split
    · rename_i he
      rw [getD_eq_getElem_of_lt bt 0 0 (by omega)]
      exact pairwise_le_getElem bt hbt 0 i (by omega) h1 (by omega)
    · exact le_refl _
  have hetR : getElem et i h2 ≤
      getElem (et.set (et.length - 2) (et.getD (et.length - 1) 0)) i
        (by rw [List.length_set]; omega) := by
    rw [List.getElem_set]
    split
    · rename_i he
      rw [getD_eq_getElem_of_lt et 0 (et.length - 1) (by omega)]
      refine pairwise_le_getElem et het i (et.length - 1) h2 (by omega) (by omega)
    · exact le_refl _
  exact le_trans hbL (le_trans (hpt i h1 h2) hetR)

/-- Dropping the first and last entries of both tables preserves the pointwise
order. -/
theorem drop_dropLast_pointwise (bt et : List ℚ)
    (hpt : ∀ (i : ℕ) (h1 : i < bt.length) (h2 : i < et.length), bt[i] ≤ et[i]) :
    ∀ (i : ℕ) (h1 : i < ((bt.drop 1).dropLast).length)
      (h2 : i < ((et.drop 1).dropLast).length),
      ((bt.drop 1).dropLast)[i] ≤ ((et.drop 1).dropLast)[i] := by
  intro i h1 h2
  rw [List.length_dropLast, List.length_drop] at h1 h2
  have e1 : getElem ((bt.drop 1).dropLast) i
      (by rw [List.length_dropLast, List.length_drop]; omega) = getElem bt (1 + i) (by omega) := by
    rw [List.getElem_dropLast, List.getElem_drop]
  have e2 : getElem ((et.drop 1).dropLast) i
      (by rw [List.length_dropLast, List.length_drop]; omega) = getElem et (1 + i) (by omega) := by
    rw [List.getElem_dropLast, List.getElem_drop]
  rw [e1, e2]
  exact hpt (1 + i) (by omega) (by omega)

/-- The final word-building comprehension: whenever the begin/end tables are
pointwise ordered, every produced word has `start <= end` (rounding is
monotone). -/
theorem filterMap_words_start_le_end (st : ℚ) :
    ∀ (wl : List String) (bt et : List ℚ),
      (∀ (i : ℕ) (h1 : i < bt.length) (h2 : i < et.length), bt[i] ≤ et[i]) →
      ∀ w ∈ (wl.zip (bt.zip et)).filterMap (fun we =>
          if pyStartsWith we.1 "<|" then none
          else some (⟨we.1, round2 (we.2.1 + st), round2 (we.2.2 + st)⟩ : Word)),
        w.start ≤ w.end_ := by
  intro wl
  induction wl with
  | nil =>
    intro bt et _ w hw
    simp only [List.zip_nil_left, List.filterMap_nil] at hw
    cases hw
  | cons x xs ih =>
    intro bt et hpt w hw
    cases bt with
    | nil =>
      simp only [List.zip_nil_left, List.zip_nil_right, List.filterMap_nil] at hw
      cases hw
    | cons b bt' =>
      cases et with
      | nil =>
        simp only [List.zip_nil_right, List.filterMap_nil] at hw
        cases hw
      | cons e et' =>
        rw [List.zip_cons_cons, List.zip_cons_cons] at hw
        have hpt' : ∀ (i : ℕ) (h1 : i < bt'.length) (h2 : i < et'.length),
            bt'[i] ≤ et'[i] := by
          intro i hh1 hh2
          have := hpt (i + 1) (by simpa using Nat.succ_lt_succ hh1)
            (by simpa using Nat.succ_lt_succ hh2)
          simpa using this
        by_cases hm : pyStartsWith x "<|" = true
        · have hfc : List.filterMap (fun (we : String × ℚ × ℚ) =>
              if pyStartsWith we.1 "<|" then none
              else some (⟨we.1, round2 (we.2.1 + st), round2 (we.2.2 + st)⟩ : Word))
                ((x, (b, e)) :: xs.zip (bt'.zip et')) =
              List.filterMap (fun (we : String × ℚ × ℚ) =>
              if pyStartsWith we.1 "<|" then none
              else some (⟨we.1, round2 (we.2.1 + st), round2 (we.2.2 + st)⟩ : Word))
                (xs.zip (bt'.zip et')) :=
            List.filterMap_cons_none (by dsimp only; rw [if_pos hm])
          rw [hfc] at hw
          exact ih bt' et' hpt' w hw
        · have hfc : List.filterMap (fun (we : String × ℚ × ℚ) =>
              if pyStartsWith we.1 "<|" then none
              else some (⟨we.1, round2 (we.2.1 + st), round2 (we.2.2 + st)⟩ : Word))
                ((x, (b, e)) :: xs.zip (bt'.zip et')) =
              (⟨x, round2 (b + st), round2 (e + st)⟩ : Word) ::
              List.filterMap (fun (we : String × ℚ × ℚ) =>
              if pyStartsWith we.1 "<|" then none
              else some (⟨we.1, round2 (we.2.1 + st), round2 (we.2.2 + st)⟩ : Word))
                (xs.zip (bt'.zip et')) :=
            List.filterMap_cons_some (by dsimp only; rw [if_neg hm])
          rw [hfc] at hw
          rw [List.mem_cons] at hw
          rcases hw with hw | hw
          · subst hw
            have hbe : b ≤ e := hpt 0 (by simp) (by simp)
            show round2 (b + st) ≤ round2 (e + st)
            exact round2_monotone (by linarith)
          · exact ih bt' et' hpt' w hw

/-- `perform_word_alignment` always fails when the first attention argument is
a plain Python list (the entry assertion evaluates `w.shape[-2]`). -/
theorem perform_tlist_head_ne_ok (fuel : ℕ) (tokens : List ℤ) (ts : List T4)
    (rest : List AttArg) (T : Tokenizer) (us : Bool) (refine : ℕ) (ae : Bool)
    (mw : ℕ) (mtl : Option ℕ) (rp : Bool) (ws : List Word) :
    perform_word_alignment fuel tokens (AttArg.tlist ts :: rest) T us refine ae
      mw mtl rp ≠ Except.ok ws := by
  intro h
  match fuel with
  | 0 =>
    rw [perform_word_alignment] at h
    exact Except.noConfusion h
  | fuel + 1 =>
    rw [perform_word_alignment] at h
    rw [show checkAttShapes tokens.length (AttArg.tlist ts :: rest) =
      Except.error "AttributeError: 'list' object has no attribute 'shape'" from rfl] at h
    exact Except.noConfusion h

/-- The collapsed attention argument built by the retry: every element of a
successful `mapM` is a two-tensor list. -/
theorem mapM_collapse_all_tlist (k : ℕ) :
    ∀ (aws : List AttArg) (l : List AttArg),
      (aws.mapM fun w =>
        match w with
        | .tensor t => pure (AttArg.tlist [sliceTokTake k t, sliceTokLast t])
        | .tlist _ =>
          (Except.error "TypeError: list indices must be integers or slices, not tuple" :
            Except String AttArg)) = Except.ok l →
      l.length = aws.length ∧ ∀ x ∈ l, ∃ us, x = AttArg.tlist us := by
  intro aws
  induction aws with
  | nil =>
    intro l h
    rw [List.mapM_nil] at h
    simp only [Pure.pure, Except.pure, Except.ok.injEq] at h
    subst h
    exact ⟨rfl, by intro x hx; cases hx⟩
  | cons a rest ih =>
    intro l h
    rw [List.mapM_cons] at h
    cases a with
    | tlist us => exact Except.noConfusion h
    | tensor t =>
      simp only [Pure.pure, Except.pure, Bind.bind, Except.bind] at h
      cases hr : rest.mapM (fun w =>
          match w with
          | .tensor t => Except.ok (AttArg.tlist [sliceTokTake k t, sliceTokLast t])
          | .tlist _ =>
            (Except.error "TypeError: list indices must be integers or slices, not tuple" :
              Except String AttArg)) with
      | error e =>
        rw [hr] at h
        exact Except.noConfusion h
      | ok l' =>
        rw [hr] at h
        simp only [Except.ok.injEq] at h
        subst h
        obtain ⟨hlen, hall⟩ := ih l' hr
        refine ⟨by simp [hlen], ?_⟩
        intro x hx
        rw [List.mem_cons] at hx
        rcases hx with hx | hx
        · exact ⟨_, hx⟩
        · exact hall x hx

/-- `jump_times` (scaled jump frames padded with the window duration) is
sorted whenever the frames are strictly increasing and bounded by the last
frame of the window. -/
theorem jump_times_sorted (jf : List ℕ) (m : ℕ) (tail : ℚ)
    (hpw : jf.Pairwise (· < ·))
    (hbd : ∀ y ∈ jf, y ≤ m - 1) (hm : 1 ≤ m)
    (htail : (m : ℚ) * AUDIO_TIME_PER_TOKEN ≤ tail) :
    ((jf.map fun (f : ℕ) => (f : ℚ) * AUDIO_TIME_PER_TOKEN) ++ [tail]).Pairwise (· ≤ ·) := by
  have hAT : (0 : ℚ) ≤ AUDIO_TIME_PER_TOKEN := by norm_num [AUDIO_TIME_PER_TOKEN]
  rw [List.pairwise_append]
  refine ⟨?_, by simp, ?_⟩
  · refine hpw.map _ ?_
    intro a b hab
    have : (a : ℚ) ≤ (b : ℚ) := by exact_mod_cast le_of_lt hab
    exact mul_le_mul_of_nonneg_right this hAT
  · intro a ha b hb
    rw [List.mem_singleton] at hb
    subst hb
    obtain ⟨f, hf, hfe⟩ := List.exists_of_mem_map ha
    subst hfe
    have h1 : f ≤ m - 1 := hbd f hf
    have h2 : (f : ℚ) ≤ (m : ℚ) := by
      have : f ≤ m := by omega
      exact_mod_cast this
    exact le_trans (mul_le_mul_of_nonneg_right h2 hAT) htail

/-- Structure of the selected jump frames for an `n × m` cost matrix with
`1 ≤ n ≤ m`: exactly `n` jumps, strictly increasing, all within the window. -/
theorem jump_frames_facts (c : ℕ → ℕ → ℚ) (n m : ℕ) (hn : 1 ≤ n) (hnm : n ≤ m) :
    (jumpSelect none (dtwPath c n m)).length = n ∧
    (jumpSelect none (dtwPath c n m)).Pairwise (· < ·) ∧
    (∀ y ∈ jumpSelect none (dtwPath c n m), y ≤ m - 1) := by
  obtain ⟨hch, hhd, hlast⟩ := dtwPathAux_spec c (m - 1) (n - 1) (by omega)
  rw [dtwPath]
  refine ⟨?_, ?_, ?_⟩
  · have := jumpSelect_none_length _ (n - 1, m - 1) hch hhd hlast
    rw [this]
    omega
  · exact List.Pairwise.sublist (jumpSelect_sublist _ none)
      (List.chain'_iff_pairwise.mp (path_snd_chain _ hch))
  · exact jumpSelect_le _ (n - 1, m - 1) hch hlast

/-- The begin/end time tables produced by the alignment tail are sorted, have
equal length, and are pointwise ordered, for any cost values. -/
theorem word_times_tail_spec (W : T4) (mtl : Option ℕ) (NT NF : ℕ)
    (wt : List (List String)) (dur : ℚ)
    (hn : 1 ≤ NT) (hnm : NT ≤ NF)
    (hwt : wt.flatten.length ≤ NT)
    (hdur : (NF : ℚ) * AUDIO_TIME_PER_TOKEN ≤ dur) :
    (word_times_tail W mtl NT NF wt dur).1.Pairwise (· ≤ ·) ∧
    (word_times_tail W mtl NT NF wt dur).2.Pairwise (· ≤ ·) ∧
    (word_times_tail W mtl NT NF wt dur).1.length =
      (word_times_tail W mtl NT NF wt dur).2.length ∧
    ∀ (i : ℕ) (h1 : i < (word_times_tail W mtl NT NF wt dur).1.length)
      (h2 : i < (word_times_tail W mtl NT NF wt dur).2.length),
      (word_times_tail W mtl NT NF wt dur).1[i] ≤
        (word_times_tail W mtl NT NF wt dur).2[i] := by
  obtain ⟨hjl, hjpw, hjbd⟩ := jump_frames_facts
    (negMeanLayersHeads ((mtl.elim (normalizeTok (softmaxLast W))
      fun k => lastLayers k (normalizeTok (softmaxLast W))))) NT NF hn hnm
  have hwb : ((wt.map List.length).scanl (· + ·) 0).Pairwise (· ≤ ·) :=
    scanl_add_pairwise _ 0
  have hjt : ((jumpSelect none (dtwPath
      (negMeanLayersHeads ((mtl.elim (normalizeTok (softmaxLast W))
        fun k => lastLayers k (normalizeTok (softmaxLast W))))) NT NF)).map
      (fun (f : ℕ) => (f : ℚ) * AUDIO_TIME_PER_TOKEN) ++ [dur]).Pairwise (· ≤ ·) :=
    jump_times_sorted _ NF dur hjpw hjbd (by omega) hdur
  have hlt : ∀ y ∈ (wt.map List.length).scanl (· + ·) 0,
      y < ((jumpSelect none (dtwPath
        (negMeanLayersHeads ((mtl.elim (normalizeTok (softmaxLast W))
          fun k => lastLayers k (normalizeTok (softmaxLast W))))) NT NF)).map
        (fun (f : ℕ) => (f : ℚ) * AUDIO_TIME_PER_TOKEN) ++ [dur]).length := by
    intro y hy
    have h1 := scanl_add_mem_le _ 0 y hy
    have h2 : (wt.map List.length).sum = wt.flatten.length := by
      rw [List.length_flatten]
    rw [List.length_append, List.length_map, hjl]
    simp only [List.length_singleton]
    omega
  obtain ⟨hbt, het, hpt⟩ := map_getD_pointwise
    ((wt.map List.length).scanl (· + ·) 0)
    ((jumpSelect none (dtwPath
      (negMeanLayersHeads ((mtl.elim (normalizeTok (softmaxLast W))
        fun k => lastLayers k (normalizeTok (softmaxLast W))))) NT NF)).map
      (fun (f : ℕ) => (f : ℚ) * AUDIO_TIME_PER_TOKEN) ++ [dur])
    hwb hjt hlt
  refine ⟨hbt, het, ?_, hpt⟩
  simp [word_times_tail]

/-- The flattened spans of the unicode split contain one entry per decoded
chunk, hence at most one per token. -/
theorem unicode_flatten_le (T : Tokenizer) (tokens : List ℤ) (rp : Bool) :
    (split_tokens_on_unicode tokens T rp).2.flatten.length ≤ tokens.length := by
  have hf := split_unicode_aux_flatten T rp tokens [] [] [] rfl
  rw [split_tokens_on_unicode, hf]
  simp only [List.flatten_nil, List.nil_append, List.length_map]
  exact unicode_chunks_count_le T tokens []

/-- Every word produced by the main alignment branch has `start ≤ end`,
whatever the attention values: the begin/end tables come from a sorted
timestamp table indexed at sorted boundaries.  The retry continuation is
assumed to fail on the collapsed (list-per-layer) attention argument, as the
recursive call does. -/
theorem align_main_start_le_end (tokens : List ℤ) (aw : List AttArg)
    (T : Tokenizer) (us : Bool) (refine mw : ℕ) (mtl : Option ℕ) (rp : Bool)
    (sTok eTok : ℤ)
    (retry : List ℤ → List AttArg → Except String (List Word)) (ws : List Word)
    (hnz : 1 ≤ tokens.length)
    (hgt : sTok < eTok)
    (hretry : ∀ (tks : List ℤ) (cw : List AttArg) (ws2 : List Word), cw ≠ [] →
      (∀ x ∈ cw, ∃ ts, x = AttArg.tlist ts) → retry tks cw ≠ Except.ok ws2)
    (h : align_main tokens aw T us refine mw mtl rp sTok eTok retry = Except.ok ws) :
    ∀ w ∈ ws, w.start ≤ w.end_ := by
  rw [align_main] at h
  cases hs : (if us = true then split_tokens_on_spaces tokens T rp
      else pure (split_tokens_on_unicode tokens T rp)) with
  | error e2 =>
    rw [hs] at h
    simp only [Bind.bind, Except.bind] at h
    exact Except.noConfusion h
  | ok s =>
    rw [hs] at h
    simp only [Bind.bind, Except.bind] at h
    have hflat : s.2.flatten.length ≤ tokens.length := by
      by_cases hus : us = true
      · rw [if_pos hus] at hs
        rw [split_spaces_flatten_of_ok T tokens rp s hs]
        exact unicode_flatten_le T tokens rp
      · rw [if_neg hus] at hs
        have hseq : split_tokens_on_unicode tokens T rp = s := by
          simpa only [Pure.pure, Except.pure, Except.ok.injEq] using hs
        rw [← hseq]
        exact unicode_flatten_le T tokens rp
    cases hw : catAttArgs aw with
    | error e3 =>
      rw [hw] at h
      simp only [Bind.bind, Except.bind] at h
      exact Except.noConfusion h
    | ok weights =>
      rw [hw] at h
      simp only [Bind.bind, Except.bind] at h
      split at h
      case isTrue hcol =>
        exfalso
        cases hm2 : aw.mapM (fun w =>
            match w with
            | .tensor t => pure (AttArg.tlist
                [sliceTokTake ((eTok - sTok).toNat - 1) t, sliceTokLast t])
            | .tlist _ =>
              (Except.error
                "TypeError: list indices must be integers or slices, not tuple" :
                Except String AttArg)) with
        | error e4 =>
          rw [hm2] at h
          simp only [Bind.bind, Except.bind] at h
          exact Except.noConfusion h
        | ok coll =>
          rw [hm2] at h
          simp only [Bind.bind, Except.bind] at h
          have hnaw : aw ≠ [] := by
            intro hnil
            subst hnil
            rw [show catAttArgs [] = Except.error
              "RuntimeError: torch.cat expected a non-empty list of Tensors"
              from rfl] at hw
            exact Except.noConfusion hw
          obtain ⟨hlen, hall⟩ := mapM_collapse_all_tlist _ aw coll hm2
          have hcne : coll ≠ [] := by
            intro hnil
            subst hnil
            rw [List.length_nil] at hlen
            exact hnaw (List.length_eq_zero.mp hlen.symm)
          exact hretry _ coll ws hcne hall h
      case isFalse hcol =>
        split at h
        · exact Except.noConfusion h
        rename_i hd3
        split at h
        · exact Except.noConfusion h
        rename_i htokn
        have htok : tokens.length = weights.d2 := not_not.mp htokn
        simp only [medfiltLast] at h
        split at h
        · exact Except.noConfusion h
        rename_i v hmeq
        split at hmeq
        · exact Except.noConfusion hmeq
        rename_i hmf
        simp only [Except.ok.injEq] at hmeq
        subst hmeq
        have hcast : (((eTok - sTok).toNat : ℕ) : ℚ) = (eTok : ℚ) - (sTok : ℚ) := by
          have h1 : (((eTok - sTok).toNat : ℕ) : ℤ) = eTok - sTok :=
            Int.toNat_of_nonneg (by omega)
          have h2 := congrArg (fun (z : ℤ) => (z : ℚ)) h1
          push_cast at h2
          exact h2
        have hdur : (((eTok - sTok).toNat : ℕ) : ℚ) * AUDIO_TIME_PER_TOKEN ≤
            (eTok : ℚ) * AUDIO_TIME_PER_TOKEN - (sTok : ℚ) * AUDIO_TIME_PER_TOKEN := by
          rw [hcast, ← sub_mul]
        obtain ⟨hbt, het, hleq, hpt⟩ := word_times_tail_spec
          (sliceFrames weights sTok.toNat eTok.toNat) mtl weights.d2
          ((eTok - sTok).toNat) s.2
          ((eTok : ℚ) * AUDIO_TIME_PER_TOKEN - (sTok : ℚ) * AUDIO_TIME_PER_TOKEN)
          (by omega) (by omega) (by rw [← htok]; exact hflat) hdur
        split at h
        · exact Except.noConfusion h
        rename_i btet heq
        split at heq
        case isTrue hrf =>
          split at heq
          · exact Except.noConfusion heq
          rename_i hlen2
          simp only [Pure.pure, Except.pure, Except.ok.injEq] at heq
          subst heq
          dsimp only at h
          simp only [Pure.pure, Except.pure, Except.ok.injEq] at h
          subst h
          have h2len : 2 ≤ (word_times_tail
              (sliceFrames weights sTok.toNat eTok.toNat) mtl weights.d2
              ((eTok - sTok).toNat) s.2
              ((eTok : ℚ) * AUDIO_TIME_PER_TOKEN -
                (sTok : ℚ) * AUDIO_TIME_PER_TOKEN)).1.length := by omega
          exact filterMap_words_start_le_end _ _ _ _
            (drop_dropLast_pointwise _ _
              (set_fixup_pointwise _ _ hbt het hleq h2len hpt))
        case isFalse hrf =>
          simp only [Pure.pure, Except.pure, Except.ok.injEq] at heq
          subst heq
          dsimp only at h
          simp only [Pure.pure, Except.pure, Except.ok.injEq] at h
          subst h
          exact filterMap_words_start_le_end _ _ _ _
            (drop_dropLast_pointwise _ _ hpt)

/-- C2 (corrected): every word produced by `perform_word_alignment` satisfies
`start ≤ end` provided that, whenever the segment has more than one token, its
last token is timestamp-class (`≥ timestamp_begin`).  The DTW path guarantees
the property unconditionally (jump frames are strictly increasing and rounding
to hundredths is monotone); the missing-end-marker placeholder path guarantees
it only under the proviso — for a multi-token segment ending in a
non-timestamp token it emits a word whose end time precedes its start time
(`C2_counterexample`). -/
theorem C2_word_start_le_end
    (fuel : ℕ) (tokens : List ℤ) (aw : List AttArg) (T : Tokenizer) (us : Bool)
    (refine : ℕ) (ae : Bool) (mw : ℕ) (mtl : Option ℕ) (rp : Bool) (ws : List Word)
    (hend : tokens.length ≠ 1 → T.timestamp_begin ≤ tokens.getLastD 0)
    (h : perform_word_alignment fuel tokens aw T us refine ae mw mtl rp = Except.ok ws) :
    ∀ w ∈ ws, w.start ≤ w.end_ := by
  match fuel with
  | 0 =>
    rw [perform_word_alignment] at h
    exact Except.noConfusion h
  | fuel + 1 =>
    rw [perform_word_alignment] at h
    cases hc : checkAttShapes tokens.length aw with
    | error e =>
      rw [hc] at h
      simp only [Bind.bind, Except.bind] at h
      exact Except.noConfusion h
    | ok u =>
      rw [hc] at h
      simp only [Bind.bind, Except.bind] at h
      split at h
      · exact Except.noConfusion h
      rename_i hne
      split at h
      · exact Except.noConfusion h
      rename_i hstart
      split at h
      case isTrue hplace =>
        by_cases hl1 : tokens.length = 1
        · split at h
          · simp only [Pure.pure, Except.pure, Except.ok.injEq] at h
            subst h
            intro w hw
            rw [List.mem_singleton] at hw
            subst hw
            cases tokens with
            | nil => exact absurd hl1 (by simp)
            | cons t rest =>
              cases rest with
              | nil => exact le_refl _
              | cons t2 r2 => exact absurd hl1 (by simp)
          · simp only [Pure.pure, Except.pure, Except.ok.injEq] at h
            subst h
            intro w hw
            cases hw
        · exfalso
          rw [Bool.or_eq_true] at hplace
          rcases hplace with hp1 | hp2
          · exact hl1 (beq_iff_eq.mp hp1)
          · have h2 := of_decide_eq_true hp2
            have h3 := hend hl1
            omega
      case isFalse hplace =>
      split at h
      · simp only [Pure.pure, Except.pure, Except.ok.injEq] at h
        subst h
        intro w hw
        cases hw
      rename_i hempty
      have hlen0 : tokens.length ≠ 0 := by
        intro h0
        exact hne (by rw [List.length_eq_zero.mp h0]; rfl)
      have hretry : ∀ (tks : List ℤ) (cw : List AttArg) (ws2 : List Word), cw ≠ [] →
          (∀ x ∈ cw, ∃ ts, x = AttArg.tlist ts) →
          perform_word_alignment fuel tks cw T us refine true mw mtl rp ≠
            Except.ok ws2 := by
        intro tks cw ws2 hne2 hall heq
        cases cw with
        | nil => exact hne2 rfl
        | cons c cr =>
          obtain ⟨ts, hts⟩ := hall c (by simp)
          subst hts
          exact perform_tlist_head_ne_ok fuel tks ts cr T us refine true mw mtl rp ws2 heq
      split at h
      case isTrue hrefpos =>
        split at h
        · exact Except.noConfusion h
        rename_i hgt
        exact align_main_start_le_end tokens aw T us refine mw mtl rp _ _ _ ws
          (by omega) (lt_of_not_le hgt) hretry h
      case isFalse hrefpos =>
        split at h
        · exact Except.noConfusion h
        rename_i hgt
        exact align_main_start_le_end tokens aw T us refine mw mtl rp _ _ _ ws
          (by omega) (lt_of_not_le hgt) hretry h

/-- C2 counterexample: with `timestamp_begin = 10`, the two-token segment
`[15, 0]` (leading timestamp marker, trailing non-timestamp token) takes the
missing-end-marker placeholder path and returns one word with `start = 0.1`
and `end = -0.2`: the claimed `start ≤ end` fails on the placeholder path. -/
theorem C2_counterexample :
    perform_word_alignment 2 [15, 0] [] sampleTokenizer true 0 true 9 none false =
      Except.ok [⟨"", 1/10, -1/5⟩] ∧ ((-1/5 : ℚ) < 1/10) := by
  constructor
  · rw [perform_word_alignment]
    norm_num [checkAttShapes, Bind.bind, Except.bind, sampleTokenizer, round2_eq,
      round_eq, AUDIO_TIME_PER_TOKEN, Pure.pure, Except.pure]
  · norm_num

/-- C2 witness: the amended theorem applied to the segment `[11, 11]`
(both hypotheses discharged concretely: two tokens, last token `11` is
timestamp-class for `timestamp_begin = 10`; the call returns `ok []`). -/
theorem C2_witness :
    (([11, 11] : List ℤ).length ≠ 1 →
      sampleTokenizer.timestamp_begin ≤ ([11, 11] : List ℤ).getLastD 0) ∧
    ∀ w ∈ ([] : List Word), w.start ≤ w.end_ :=
  ⟨by decide,
   C2_word_start_le_end 2 [11, 11] [] sampleTokenizer true 0 true 9 none false []
     (by decide) (by decide)⟩

theorem updatePenult_length {α : Type} (f : α → α) :
    ∀ (l : List α), (updatePenult f l).length = l.length := by
  intro l
  induction l with
  | nil => rfl
  | cons a rest ih =>
    cases rest with
    | nil => rfl
    | cons b r =>
      cases r with
      | nil => rfl
      | cons c r2 =>
        rw [updatePenult, List.length_cons, List.length_cons, ih]

theorem updatePenult_ne_nil {α : Type} (f : α → α) (l : List α) (h : l ≠ []) :
    updatePenult f l ≠ [] := by
  intro hc
  apply h
  have := updatePenult_length f l
  rw [hc] at this
  exact List.length_eq_zero.mp this.symm

theorem reset_saw (s : TState) (a k : Bool) :
    (reset s a k).saw_consecutive_timestamps = s.saw_consecutive_timestamps := by
  rw [reset]
  split
  · split <;> rfl
  · split <;> rfl

theorem reset_ne_nil (s : TState) (a k : Bool) (hne : s.tok_indices ≠ []) :
    (reset s a k).tok_indices ≠ [] := by
  rw [reset]
  split
  · split
    · exact updatePenult_ne_nil _ _ (by simp)
    · exact updatePenult_ne_nil _ _ (by simp)
  · split
    · exact updateLast_ne_nil _ _ hne
    · exact hne

/-- On a single-token step, `must_flush_segment` returns the
consecutive-timestamps test and records it in `saw_consecutive_timestamps`. -/
theorem must_flush_single (tb : ℤ) (s : TState) (t : ℤ) :
    must_flush_segment tb s (some [t]) =
      (if tb ≤ t ∧ tb ≤ last_buffer_token s then
        (true, { s with saw_consecutive_timestamps := true })
      else (false, s)) := by
  rw [must_flush_segment]
  by_cases hC : tb ≤ t ∧ tb ≤ last_buffer_token s
  · rw [if_pos hC]
    have hd : (decide (tb ≤ ([t] : List ℤ).headD 0 ∧ tb ≤ last_buffer_token s)) = true := by
      rw [decide_eq_true_eq]
      exact hC
    simp only [hd]
    simp [hC]
  · rw [if_neg hC]
    have hd : (decide (tb ≤ ([t] : List ℤ).headD 0 ∧ tb ≤ last_buffer_token s)) = false := by
      rw [decide_eq_false_iff_not]
      exact hC
    simp only [hd]
    simp [hC]

/-- On a prompt (or finalization) event, `must_flush_segment` flushes exactly
when no consecutive-timestamp pair has been seen since the last prompt, and
otherwise discards the buffered tokens entirely. -/
theorem must_flush_prompt (tb : ℤ) (s : TState) (curr : Option (List ℤ))
    (hcurr : ∀ l, curr = some l → l.length ≠ 1) :
    must_flush_segment tb s curr =
      (! s.saw_consecutive_timestamps,
       { (if s.saw_consecutive_timestamps then reset s false true else s) with
          saw_consecutive_timestamps := false }) := by
  cases curr with
  | none =>
    rw [must_flush_segment]
    cases hsaw : s.saw_consecutive_timestamps <;> simp [hsaw]
  | some l =>
    rw [must_flush_segment]
    rw [if_neg (hcurr l rfl)]
    cases hsaw : s.saw_consecutive_timestamps <;> simp [hsaw]

/-- A successful single-token step preserves a non-empty segment list and
or-accumulates the consecutive-timestamps observation into
`saw_consecutive_timestamps`. -/
theorem may_flush_single_step (cfg : TConfig) (s s1 : TState) (t : ℤ)
    (hne : s.tok_indices ≠ [])
    (h : may_flush_segment cfg s (some [t]) = Except.ok s1) :
    s1.tok_indices ≠ [] ∧
    s1.saw_consecutive_timestamps =
      (s.saw_consecutive_timestamps ||
       (decide (cfg.tokenizer.timestamp_begin ≤ t) &&
        decide (cfg.tokenizer.timestamp_begin ≤ last_buffer_token s))) := by
  rw [may_flush_segment, must_flush_single] at h
  split at h
  case isTrue hC =>
    simp only [Bind.bind, Except.bind] at h
    rw [if_pos trivial] at h
    have hdec : (decide (cfg.tokenizer.timestamp_begin ≤ t) &&
        decide (cfg.tokenizer.timestamp_begin ≤ last_buffer_token s)) = true := by
      rw [Bool.and_eq_true, decide_eq_true_eq, decide_eq_true_eq]
      exact hC
    rw [hdec, Bool.or_true]
    cases hm : s.tok_attweights.mapM (fun w => catDim2 w.dropLast) with
    | error e =>
      rw [hm] at h
      exact Except.noConfusion h
    | ok catted =>
      rw [hm] at h
      dsimp only at h
      cases hp : perform_word_alignment ((s.tok_indices.getLastD []).length + 2)
          (List.drop 1 (s.tok_indices.getLastD [])) (List.map AttArg.tensor catted)
          cfg.tokenizer cfg.use_space cfg.refine_whisper_precision_nsamples true 9 none
          cfg.remove_punctuation_from_words with
      | error e =>
        rw [hp] at h
        exact Except.noConfusion h
      | ok ws2 =>
        rw [hp] at h
        simp only [Pure.pure, Except.pure, get_index_begin_30sec_chunck,
          List.length_singleton, gt_iff_lt, lt_self_iff_false, if_false,
          Except.ok.injEq] at h
        subst h
        constructor
        · split
          · exact reset_ne_nil _ _ _ hne
          · exact reset_ne_nil _ _ _ hne
        · rw [reset_saw]
          split <;> rfl
  case isFalse hC =>
    simp only [Bind.bind, Except.bind] at h
    rw [if_neg (by intro hf; exact Bool.noConfusion hf)] at h
    have hdec : (decide (cfg.tokenizer.timestamp_begin ≤ t) &&
        decide (cfg.tokenizer.timestamp_begin ≤ last_buffer_token s)) = false := by
      by_cases h1 : cfg.tokenizer.timestamp_begin ≤ t
      · have h2 : ¬ cfg.tokenizer.timestamp_begin ≤ last_buffer_token s :=
          fun h2 => hC ⟨h1, h2⟩
        rw [decide_eq_false h2, Bool.and_false]
      · rw [decide_eq_false h1, Bool.false_and]
    rw [hdec, Bool.or_false]
    simp only [Pure.pure, Except.pure, get_index_begin_30sec_chunck,
      List.length_singleton, gt_iff_lt, lt_self_iff_false, if_false,
      Except.ok.injEq] at h
    subst h
    exact ⟨hne, rfl⟩

theorem updateLast_getLastD {α : Type} (f : α → α) :
    ∀ (l : List α) (d : α), l ≠ [] → (updateLast f l).getLastD d = f (l.getLastD d) := by
  intro l
  induction l with
  | nil => intro d h; exact absurd rfl h
  | cons a rest ih =>
    intro d _
    cases rest with
    | nil => rfl
    | cons b r =>
      rw [updateLast, List.getLastD_cons, List.getLastD_cons]
      exact ih a (by simp)

/-- The prompt-time discard (`reset(False, True)`) empties the current token
buffer entirely (the `keep_last_token` argument is ignored on this path). -/
theorem reset_discard_clears (s : TState) :
    (reset s false true).tok_indices.getLastD [] = [] := by
  rw [reset]
  rw [if_neg (by intro hf; exact Bool.noConfusion hf)]
  split
  · rename_i hcond
    have hne : s.tok_indices ≠ [] := by
      intro h0
      rw [h0] at hcond
      simp at hcond
    rw [updateLast_getLastD _ _ _ hne]
  · rename_i hcond
    have : (s.tok_indices.getLastD []).length = 0 := by omega
    exact List.length_eq_zero.mp this

/-- A successful single-token decoding step: the buffered segment list stays
non-empty, the last buffered token becomes the submitted token, and
`saw_consecutive_timestamps` or-accumulates the pair observation. -/
theorem on_single_token_step (cfg : TConfig) (s s' : TState) (t : ℤ) (att : List T4)
    (hne : s.tok_indices ≠ [])
    (h : on_single_token cfg s t att = Except.ok s') :
    s'.tok_indices ≠ [] ∧
    last_buffer_token s' = t ∧
    s'.saw_consecutive_timestamps =
      (s.saw_consecutive_timestamps ||
       (decide (cfg.tokenizer.timestamp_begin ≤ t) &&
        decide (cfg.tokenizer.timestamp_begin ≤ last_buffer_token s))) := by
  rw [on_single_token] at h
  cases hmf : may_flush_segment cfg s (some [t]) with
  | error e =>
    rw [hmf] at h
    simp only [Bind.bind, Except.bind] at h
    exact Except.noConfusion h
  | ok s1 =>
    rw [hmf] at h
    simp only [Bind.bind, Except.bind, Pure.pure, Except.pure, Except.ok.injEq] at h
    obtain ⟨hne1, hsaw1⟩ := may_flush_single_step cfg s s1 t hne hmf
    subst h
    refine ⟨?_, ?_, ?_⟩
    · dsimp only
      split <;> exact updateLast_ne_nil _ _ hne1
    · rw [last_buffer_token]
      dsimp only
      split <;>
        · rw [updateLast_getLastD _ _ _ hne1]
          simp
    · dsimp only
      split <;> exact hsaw1

/-- Running a trace of single-token steps: `saw_consecutive_timestamps`
records exactly whether some adjacent pair of the extended token stream
(last buffered token followed by the submitted tokens) was two
timestamp-class tokens. -/
theorem runSingles_saw (cfg : TConfig) :
    ∀ (evs : List (ℤ × List T4)) (s s' : TState), s.tok_indices ≠ [] →
      runSingles cfg s evs = Except.ok s' →
      s'.tok_indices ≠ [] ∧
      last_buffer_token s' = (evs.map Prod.fst).getLastD (last_buffer_token s) ∧
      s'.saw_consecutive_timestamps =
        (s.saw_consecutive_timestamps ||
         sawPair cfg.tokenizer.timestamp_begin (last_buffer_token s)
           (evs.map Prod.fst)) := by
  intro evs
  induction evs with
  | nil =>
    intro s s' hne h
    rw [runSingles] at h
    simp only [Except.ok.injEq] at h
    subst h
    refine ⟨hne, rfl, ?_⟩
    rw [List.map_nil, sawPair, Bool.or_false]
  | cons ev rest ih =>
    intro s s' hne h
    rw [runSingles] at h
    cases hstep : on_single_token cfg s ev.1 ev.2 with
    | error e =>
      rw [hstep] at h
      simp only [Bind.bind, Except.bind] at h
      exact Except.noConfusion h
    | ok s1 =>
      rw [hstep] at h
      simp only [Bind.bind, Except.bind] at h
      obtain ⟨hne1, hlast1, hsaw1⟩ := on_single_token_step cfg s s1 ev.1 ev.2 hne hstep
      obtain ⟨hne', hlast', hsaw'⟩ := ih s1 s' hne1 h
      rw [List.map_cons]
      refine ⟨hne', ?_, ?_⟩
      · rw [List.getLastD_cons, hlast', hlast1]
      · rw [hsaw', hsaw1, hlast1, sawPair, Bool.or_assoc]

/-- C1 (corrected): at a prompt event (several tokens at once, or
finalization), the buffered tokens are flushed as a new segment if and only if
NO consecutive-timestamp pair has been observed since the last prompt — the
opposite of the claimed polarity (`must_flush = not saw_consecutive_timestamps`,
line 221) — and when the flush is skipped the buffer is discarded entirely
(`reset(False, True)` clears it; the last token is NOT kept).  The second
conjunct identifies the tracked flag: after a trace of successful single-token
steps it is set exactly when the initial flag was set or some adjacent pair of
(last buffered token followed by the submitted tokens) was two
timestamp-class tokens. -/
theorem C1_prompt_flush_inverted :
    (∀ (tb : ℤ) (s : TState) (l : List ℤ), l.length ≠ 1 →
      (must_flush_segment tb s (some l)).1 = ! s.saw_consecutive_timestamps ∧
      (must_flush_segment tb s (some l)).2.saw_consecutive_timestamps = false ∧
      (s.saw_consecutive_timestamps = true →
        ((must_flush_segment tb s (some l)).2.tok_indices.getLastD []) = [])) ∧
    (∀ (cfg : TConfig) (evs : List (ℤ × List T4)) (s s' : TState),
      s.tok_indices ≠ [] → runSingles cfg s evs = Except.ok s' →
      s'.saw_consecutive_timestamps =
        (s.saw_consecutive_timestamps ||
         sawPair cfg.tokenizer.timestamp_begin (last_buffer_token s)
           (evs.map Prod.fst))) := by
  constructor
  · intro tb s l hl
    rw [must_flush_prompt tb s (some l) (by intro l' hl'; cases hl'; exact hl)]
    refine ⟨rfl, rfl, ?_⟩
    intro hsaw
    rw [if_pos hsaw]
    exact reset_discard_clears s
  · intro cfg evs s s' hne h
    exact (runSingles_saw cfg evs s s' hne h).2.2

/-- C1 counterexample: starting from a buffer ending in the non-timestamp
token `5`, the steps submit tokens `11` then `12` (two consecutive
timestamp-class tokens for `timestamp_begin = 10`), so the previous output
ends on a consecutive-timestamp pair — yet the following prompt `[50, 51]`
does NOT flush (`must_flush = false`) and clears the buffer. -/
theorem C1_counterexample :
    sawPair 10 (last_buffer_token s0C1) [11, 12] = true ∧
    (runSingles cfgC1 s0C1 [(11, [wA11]), (12, [wA11])]).map (fun s' =>
        ((must_flush_segment 10 s' (some [50, 51])).1,
         (must_flush_segment 10 s' (some [50, 51])).2.tok_indices.getLastD [],
         s'.saw_consecutive_timestamps)) =
      Except.ok (false, ([] : List ℤ), true) := by
  constructor
  · rfl
  · rfl

/-- C1 witness: both conjuncts of the corrected theorem applied at concrete
inputs — the prompt `[50, 51]` (two tokens, so the length hypothesis is
discharged concretely) on the state `s0C1`, and the empty trace from `s0C1`
(whose segment list is non-empty). -/
theorem C1_witness :
    ((([50, 51] : List ℤ).length ≠ 1) ∧
     (must_flush_segment 10 s0C1 (some [50, 51])).1 =
       ! s0C1.saw_consecutive_timestamps) ∧
    (s0C1.tok_indices ≠ [] ∧
     s0C1.saw_consecutive_timestamps =
       (s0C1.saw_consecutive_timestamps ||
        sawPair cfgC1.tokenizer.timestamp_begin (last_buffer_token s0C1)
          (([] : List (ℤ × List T4)).map Prod.fst))) :=
  ⟨⟨by decide, (C1_prompt_flush_inverted.1 10 s0C1 [50, 51] (by decide)).1⟩,
   ⟨by decide, C1_prompt_flush_inverted.2 cfgC1 [] s0C1 s0C1 (by decide) rfl⟩⟩
